import Mathlib

/-!
The dictionary build and the path projection of stemplate, `cmd/root.go`.

A shallow embedding of `RunRoot` (src/cmd/root.go): the dictionary build
(lines 156-222) as a pure function of the flags, the process environment and
the decoded configuration file, and the walk callback (lines 267-340) as a pure
function from a walked entry to the action it performs.
-/

namespace Stemplate

/-- A Go string is a finite sequence of bytes; every list element stands for one byte. -/
abbrev Str := List Char

/-! ## Package `strings` -/

namespace strings

/-- Go `strings.Index(s, sep)` for a one-byte separator: the position of the
first occurrence of `sep` in `s`, or `-1` when there is none. -/
def Index (s : Str) (sep : Char) : Int :=
  match s with
  | [] => -1
  | c :: t => if c = sep then 0 else if Index t sep < 0 then -1 else Index t sep + 1

/-- Go `strings.Split(s, sep)` for a one-byte separator: the pieces of `s`
between the occurrences of `sep`; the empty string gives one empty piece. -/
def Split (s : Str) (sep : Char) : List Str :=
  match s with
  | [] => [[]]
  | c :: t =>
    if c = sep then [] :: Split t sep
    else
      match Split t sep with
      | [] => [[c]]
      | h :: r => (c :: h) :: r

/-- Go `strings.Join(elems, sep)`. -/
def Join (elems : List Str) (sep : Str) : Str :=
  match elems with
  | [] => []
  | [e] => e
  | e :: r => e ++ sep ++ Join r sep

/-- The scan of `strings.Replace` for the first occurrence of a non-empty
`old` in `s`, which is replaced by `new`. -/
def replaceFirst (old new : Str) (s : Str) : Str :=
  match s with
  | [] => []
  | c :: t =>
    if old.isPrefixOf (c :: t) then new ++ (c :: t).drop old.length
    else c :: replaceFirst old new t

/-- Go `strings.Replace(s, old, new, 1)`: the first occurrence of `old` in `s`
is replaced by `new`; `s` is returned unchanged when `old` equals `new` or
does not occur, and an empty `old` matches at the start of `s`. -/
def Replace1 (s old new : Str) : Str :=
  if old = new then s
  else if old = [] then new ++ s
  else replaceFirst old new s

end strings

/-! ## The dictionary (`map[string]interface{}`) -/

/-- The dynamic values the dictionary holds: the nil interface, a `string`, a
`[]string`, a `map[string]string` (kept as the list of its entries), or a
value of some other type `γ` produced by the configuration decoder. -/
inductive Value (γ : Type) where
  | nil : Value γ
  | str (s : Str) : Value γ
  | list (xs : List Str) : Value γ
  | map (m : List (Str × Str)) : Value γ
  | cfg (c : γ) : Value γ
  deriving DecidableEq, Repr

/-- Comparison of an interface value with `nil`. -/
def Value.isNil {γ : Type} : Value γ → Bool
  | .nil => true
  | _ => false

/-- The global `dictionary`: which keys are present, and with which value. -/
abbrev Dict (γ : Type) := Str → Option (Value γ)

/-- Go `make(map[string]interface{})`. -/
def Dict.empty {γ : Type} : Dict γ := fun _ => none

/-- Go `dictionary[k] = v`. -/
def Dict.set {γ : Type} (d : Dict γ) (k : Str) (v : Value γ) : Dict γ :=
  fun x => if x = k then some v else d x

/-- Go `dictionary[k]` read as an expression: the nil interface for an absent key. -/
def Dict.index {γ : Type} (d : Dict γ) (k : Str) : Value γ :=
  (d k).getD Value.nil

/-- Go `tempMap[k] = v` on a `map[string]string` kept as an entry list: an
existing entry of `k` is replaced, otherwise the entry is added. -/
def mapSet (m : List (Str × Str)) (k v : Str) : List (Str × Str) :=
  match m with
  | [] => [(k, v)]
  | (k0, v0) :: r => if k0 = k then (k, v) :: r else (k0, v0) :: mapSet r k v

/-- Go `tempMap[k]` lookup with its presence flag. -/
def mapGet (m : List (Str × Str)) (k : Str) : Option Str :=
  match m with
  | [] => none
  | (k0, v0) :: r => if k0 = k then some v0 else mapGet r k

/-! ## Inputs of `RunRoot` -/

/-- The source's `FlagsType`. -/
structure FlagsType where
  Env : Bool
  File : Str
  String : Str
  List : Str
  Map : Str
  Output : Str
  Extension : Str
  All : Bool
  deriving DecidableEq, Repr

/-- The process environment as `RunRoot` sees it: the result of `os.Environ()`
and the function `os.Getenv`. -/
structure Process where
  Environ : List Str
  Getenv : Str → Str

/-- The two kinds of error of `viper.ReadInConfig` that `RunRoot` tells apart. -/
inductive ViperError where
  | UnsupportedConfigError
  | other
  deriving DecidableEq, Repr

/-- The configuration decoder as `RunRoot` uses it: the outcome of the first
`viper.ReadInConfig()`, the outcome of the second one (made after
`viper.SetConfigType("toml")`), and the entries of `viper.AllSettings()`. -/
structure Viper (γ : Type) where
  ReadInConfig : Option ViperError
  ReadInConfigToml : Option ViperError
  AllSettings : List (Str × Value γ)

/-- The errors the dictionary build returns. -/
inductive BuildError where
  | viper (e : ViperError)
  | errorsNew (msg : Str)
  deriving DecidableEq, Repr

/-! ## The dictionary build, lines 156-222 -/

/-- One iteration of the `--env` loop (lines 160-169). -/
def readEnvVar {γ : Type} (d : Dict γ) (envVar : Str) : Dict γ :=
  let equals := strings.Index envVar '='
  if equals < 1 ∨ equals = (envVar.length : Int) then d
  else d.set (envVar.take equals.toNat) (Value.str (envVar.drop (equals.toNat + 1)))

/-- The `--env` block (lines 158-170), run on the fresh dictionary. -/
def readEnv {γ : Type} (inputFlags : FlagsType) (os : Process) : Dict γ :=
  if inputFlags.Env then os.Environ.foldl readEnvVar Dict.empty else Dict.empty

/-- One iteration of the loop over `viper.AllSettings()` (lines 187-191). -/
def readSetting {γ : Type} (d : Dict γ) (kv : Str × Value γ) : Dict γ :=
  if (d.index kv.1).isNil then d.set kv.1 kv.2 else d

/-- The loop over `viper.AllSettings()` (lines 187-191). -/
def readSettings {γ : Type} (d : Dict γ) (settings : List (Str × Value γ)) : Dict γ :=
  settings.foldl readSetting d

/-- The `--file` block (lines 172-192). -/
def readFile {γ : Type} (inputFlags : FlagsType) (viper : Viper γ) (d : Dict γ) :
    Except BuildError (Dict γ) :=
  if inputFlags.File ≠ [] then
    match viper.ReadInConfig with
    | none => .ok (readSettings d viper.AllSettings)
    | some ViperError.UnsupportedConfigError =>
      match viper.ReadInConfigToml with
      | none => .ok (readSettings d viper.AllSettings)
      | some e => .error (BuildError.viper e)
    | some e => .error (BuildError.viper e)
  else .ok d

/-- The `--string` block (lines 194-199). -/
def readString {γ : Type} (inputFlags : FlagsType) (os : Process) (d : Dict γ) : Dict γ :=
  if inputFlags.String ≠ [] then
    (strings.Split inputFlags.String ',').foldl (fun d envVar => d.set envVar (Value.str (os.Getenv envVar))) d
  else d

/-- The `--list` block (lines 201-206). -/
def readList {γ : Type} (inputFlags : FlagsType) (os : Process) (d : Dict γ) : Dict γ :=
  if inputFlags.List ≠ [] then
    (strings.Split inputFlags.List ',').foldl
      (fun d envVar => d.set envVar (Value.list (strings.Split (os.Getenv envVar) ','))) d
  else d

/-- The message of line 215. -/
def missingEquals (envVar mapItem : Str) : Str :=
  "Missing =. ".toList ++ envVar ++ " does not contain a map: ".toList ++ mapItem

/-- The inner loop of the `--map` block (lines 211-219) over the items left,
with the `tempMap` built so far. -/
def readMapItems (envVar : Str) (items : List Str) (tempMap : List (Str × Str)) :
    Except BuildError (List (Str × Str)) :=
  match items with
  | [] => .ok tempMap
  | mapItem :: rest =>
    let m := strings.Split mapItem '='
    if m.length < 2 then .error (BuildError.errorsNew (missingEquals envVar mapItem))
    else readMapItems envVar rest (mapSet tempMap (m.headD []) (strings.Join m.tail ['=']))

/-- The map built for one name of `--map` (lines 210-219). -/
def readMapVar (os : Process) (envVar : Str) : Except BuildError (List (Str × Str)) :=
  readMapItems envVar (strings.Split (os.Getenv envVar) ',') []

/-- The outer loop of the `--map` block (lines 209-221) over the names left. -/
def readMapVars {γ : Type} (os : Process) (names : List Str) (d : Dict γ) :
    Except BuildError (Dict γ) :=
  match names with
  | [] => .ok d
  | envVar :: rest =>
    match readMapVar os envVar with
    | .error e => .error e
    | .ok tempMap => readMapVars os rest (d.set envVar (Value.map tempMap))

/-- The `--map` block (lines 207-222). -/
def readMap {γ : Type} (inputFlags : FlagsType) (os : Process) (d : Dict γ) :
    Except BuildError (Dict γ) :=
  if inputFlags.Map ≠ [] then readMapVars os (strings.Split inputFlags.Map ',') d else .ok d

/-- The dictionary build of `RunRoot` (lines 156-222): the dictionary on
success, the returned error otherwise. -/
def buildDictionary {γ : Type} (inputFlags : FlagsType) (os : Process) (viper : Viper γ) :
    Except BuildError (Dict γ) :=
  match readFile inputFlags viper (readEnv inputFlags os) with
  | .error e => .error e
  | .ok d => readMap inputFlags os (readList inputFlags os (readString inputFlags os d))

/-! ## Package `path/filepath` (Unix, separator `/`) -/

namespace filepath

/-- The effect of one path element on the elements kept so far by
`filepath.Clean` (`out`, last element first): empty and `.` elements are
dropped, `..` removes the last kept element when there is one that is not
itself `..`, is dropped at the root of a rooted path, and is kept otherwise;
any other element is kept. -/
def cleanElem (rooted : Bool) (out : List Str) (elem : Str) : List Str :=
  if elem = [] ∨ elem = ['.'] then out
  else if elem = ['.', '.'] then
    match out with
    | [] => if rooted then [] else [elem]
    | top :: below => if top = ['.', '.'] then elem :: out else below
  else elem :: out

/-- Whether a non-empty path starts at the root (`rooted` in `filepath.Clean`). -/
def isRooted (path : Str) : Bool := path.head? = some '/'

/-- The elements `filepath.Clean` keeps of a path, last element first. -/
def cleanElems (path : Str) : List Str :=
  (strings.Split path '/').foldl (cleanElem (isRooted path)) []

/-- The path `filepath.Clean` writes for the elements kept (`out`, last
element first): the elements joined by `/`, after a `/` when rooted, and `.`
when nothing is written. -/
def fromElems (rooted : Bool) (out : List Str) : Str :=
  if rooted then '/' :: strings.Join out.reverse ['/']
  else if strings.Join out.reverse ['/'] = [] then ['.']
  else strings.Join out.reverse ['/']

/-- Go `filepath.Clean(path)`: the shortest path equivalent to `path` by
purely lexical processing; the empty path gives `.`. -/
def Clean (path : Str) : Str :=
  if path = [] then ['.']
  else fromElems (isRooted path) (cleanElems path)

/-- Go `filepath.Join(a, b)`: the non-empty elements joined by `/` and cleaned;
empty elements are ignored, and the result is empty when both are. -/
def Join (a b : Str) : Str :=
  if a ≠ [] then Clean (a ++ '/' :: b)
  else if b ≠ [] then Clean b
  else []

/-- Go `filepath.Base(path)`: the last element of `path`, trailing slashes
removed first; `.` for the empty path and `/` for a path of slashes only. -/
def Base (path : Str) : Str :=
  if path = [] then ['.']
  else
    let last := ((path.reverse.dropWhile (fun c => c = '/')).takeWhile (fun c => c ≠ '/')).reverse
    if last = [] then ['/'] else last

/-- The backwards scan of `filepath.Ext`: `rev` is what is left of the path,
last byte first, and `acc` the bytes already passed. -/
def extScan (rev : Str) (acc : Str) : Str :=
  match rev with
  | [] => []
  | c :: r =>
    if c = '/' then []
    else if c = '.' then '.' :: acc
    else extScan r (c :: acc)

/-- Go `filepath.Ext(path)`: the suffix beginning at the final dot in the
final element of `path`; empty when there is no dot. -/
def Ext (path : Str) : Str := extScan path.reverse []

end filepath

/-! ## The file tree and `filepath.Walk` -/

mutual
/-- What `os.Lstat` finds at a path: a file, or a directory with its entries
in the order `filepath.Walk` reads them. -/
inductive Node where
  | file : Node
  | dir (entries : Entries) : Node
/-- The entries of a directory, each a name and the node under it. -/
inductive Entries where
  | nil : Entries
  | cons (name : Str) (node : Node) (rest : Entries) : Entries
end

mutual
/-- The calls `filepath.Walk(path, walkFn)` makes on a readable tree, in
order: each is a visited path and whether it is a directory. The root is
visited under the path given, an entry under `filepath.Join(path, name)`. -/
def Walk (path : Str) (node : Node) : List (Str × Bool) :=
  match node with
  | .file => [(path, false)]
  | .dir entries => (path, true) :: WalkEntries path entries
/-- The visits below a directory visited as `path`. -/
def WalkEntries (path : Str) (entries : Entries) : List (Str × Bool) :=
  match entries with
  | .nil => []
  | .cons name node rest => Walk (filepath.Join path name) node ++ WalkEntries path rest
end

/-! ## The walk callback, lines 267-340 -/

/-- What one call of the walk callback does: `skip` is `return nil` without
any output; `MkdirAll` is `os.MkdirAll(destination, ...)` of line 302; `Link`
is `os.Link(currentPath, destination)` of line 306, by which the file is
copied and not parsed; `printFile` prints the file content to standard output
(lines 326-328) without parsing it; `execute` parses the file as a template
and executes it (lines 333-339) into the file created at `out` (line 314), or
to standard output when `out` is `none`. -/
inductive Action where
  | skip : Action
  | MkdirAll (destination : Str) : Action
  | Link (currentPath destination : Str) : Action
  | printFile (currentPath : Str) : Action
  | execute (currentPath : Str) (out : Option Str) : Action
  deriving DecidableEq, Repr

/-- The result of `os.Stat` on a path: `none` for an error, otherwise whether
the path is a directory. -/
abbrev StatFn := Str → Option Bool

/-- The classification of the source and output made before the walk
(lines 237-252). -/
structure Classification where
  templateIsComplex : Bool
  templateIsDir : Bool
  outputIsDir : Bool
  deriving DecidableEq, Repr

/-- Lines 237-252: the source is complex unless `os.Stat` succeeds on the whole
argument, and `outputIsDir` is read only when an output path is given. -/
def classify (inputFlags : FlagsType) (Stat : StatFn) (templateInput : Str) : Classification :=
  { templateIsComplex := (Stat templateInput).isNone
    templateIsDir := (Stat templateInput).getD false
    outputIsDir := if inputFlags.Output ≠ [] then (Stat inputFlags.Output).getD false else false }

/-- The callback given to `filepath.Walk` (lines 267-340) for the root
`templateFileOrDir`, called on `currentPath` with `pathInfo.IsDir() = isDir`
and no error, as the action it ends in. The successive assignments to
`destination` are kept in source order. -/
def walkFn (inputFlags : FlagsType) (c : Classification) (templateFileOrDir : Str)
    (currentPath : Str) (isDir : Bool) : Action :=
  if inputFlags.Output ≠ [] then
    -- (file-to-file), lines 276-285
    if !c.templateIsComplex && !c.templateIsDir && isDir then Action.skip
    else
      let destination0 : Str :=
        if !c.templateIsComplex && !c.templateIsDir then
          if c.outputIsDir then filepath.Join inputFlags.Output (filepath.Base currentPath)
          else inputFlags.Output
        else []
      -- (dir-to-dir), lines 287-295
      let relativeRoot := filepath.Clean templateFileOrDir
      let cleanCurrentPath := filepath.Clean currentPath
      if !c.templateIsComplex && c.templateIsDir &&
          (currentPath = templateFileOrDir || relativeRoot = cleanCurrentPath) then Action.skip
      else
        let destination1 : Str :=
          if !c.templateIsComplex && c.templateIsDir then
            filepath.Join inputFlags.Output
              (filepath.Clean (strings.Replace1 cleanCurrentPath relativeRoot []))
          else destination0
        -- (multi-to-dir), lines 297-299
        let destination2 : Str :=
          if c.templateIsComplex then filepath.Join inputFlags.Output currentPath
          else destination1
        -- lines 301-303
        if isDir then Action.MkdirAll destination2
        -- lines 305-307
        else if (c.templateIsComplex || c.templateIsDir) && !inputFlags.All &&
            filepath.Ext destination2 ≠ inputFlags.Extension then
          Action.Link currentPath destination2
        else
          -- lines 309-312
          let extension := filepath.Ext destination2
          let destination3 : Str :=
            if filepath.Ext destination2 = inputFlags.Extension then
              destination2.take (destination2.length - extension.length)
            else destination2
          Action.execute currentPath (some destination3)
  else
    -- lines 321-329
    if isDir then Action.skip
    else if (c.templateIsComplex || c.templateIsDir) && !inputFlags.All &&
        filepath.Ext currentPath ≠ inputFlags.Extension then
      Action.printFile currentPath
    else Action.execute currentPath none

/-- A name is listed in a flag when the flag is set and the name is one of its
comma-separated items (the blocks are guarded by `flag != ""`). -/
def listed (flag : Str) (k : Str) : Prop := flag ≠ [] ∧ k ∈ strings.Split flag ','

instance (flag k : Str) : Decidable (listed flag k) := by
  unfold listed; exact inferInstance

/-! ## Well-formed paths and trees -/

/-- The last element of a path: what follows its last `/`. -/
def lastElem (path : Str) : Str := (path.reverse.takeWhile (fun c => c ≠ '/')).reverse

/-- A directory entry name: not empty, not `.` or `..`, without `/`. -/
def isFileName (name : Str) : Bool :=
  name ≠ [] && name ≠ ['.'] && name ≠ ['.', '.'] && !name.contains '/'

mutual
/-- Every entry of the tree has a directory entry name. -/
def Node.wellNamed (node : Node) : Bool :=
  match node with
  | .file => true
  | .dir entries => entries.wellNamed
/-- Every entry of the list, and of the trees below it, has a directory entry name. -/
def Entries.wellNamed (entries : Entries) : Bool :=
  match entries with
  | .nil => true
  | .cons name node rest => isFileName name && node.wellNamed && rest.wellNamed
end

/-- A root path fits the node found there: the path of a file ends in a file
name (a path ending in `/`, `/.` or `/..` can only name a directory). -/
def rootFits (root : Str) (node : Node) : Bool :=
  match node with
  | .file => isFileName (lastElem root)
  | .dir _ => true

/-- The shape of the element list `filepath.Clean` keeps (last element first):
directory entry names above a run of `..` elements, and no `..` when rooted. -/
def cleanStack (rooted : Bool) (out : List Str) : Bool :=
  match out with
  | [] => true
  | e :: below =>
    if e = ['.', '.'] then !rooted && below.all (fun x => x = ['.', '.'])
    else isFileName e && cleanStack rooted below

/-! ## The normaliser and the function library, lines 56-151 -/

/-- The values of type `interface{}` the template functions receive, by
dynamic type. A `uint64` is kept as its value, an `int` and an `int64` as
their signed value, and a `float64` as the result of the Go conversion
`uint64(xnum)`, which is all the source does with it; `nil`, `bool`,
`list` and `map` stand for the dynamic types the normaliser does not accept. -/
inductive Input where
  | uint64 (xnum : Nat) : Input
  | float64 (converted : Nat) : Input
  | int (xnum : Int) : Input
  | int64 (xnum : Int) : Input
  | string (xnum : Str) : Input
  | nil : Input
  | bool (b : Bool) : Input
  | list (xs : List Str) : Input
  | map (m : List (Str × Str)) : Input
  deriving DecidableEq, Repr

/-- The values are in the range of their Go type: a `uint64` below `2^64`, an
`int` (64 bits wide) and an `int64` from `-2^63` to `2^63 - 1`. -/
def Input.inRange : Input → Bool
  | .uint64 xnum => xnum < 2 ^ 64
  | .float64 converted => converted < 2 ^ 64
  | .int xnum => -(2 ^ 63) ≤ xnum && xnum < 2 ^ 63
  | .int64 xnum => -(2 ^ 63) ≤ xnum && xnum < 2 ^ 63
  | _ => true

/-- The errors of the normaliser: the two errors of `strconv.ParseUint`, and
the error of line 78. -/
inductive NumError where
  | ErrSyntax (s : Str) : NumError
  | ErrRange (s : Str) : NumError
  | cannotConvert (input : Input) : NumError
  deriving DecidableEq, Repr

namespace strconv

/-- The largest `uint64`. -/
def maxUint64 : Nat := 2 ^ 64 - 1

/-- The `cutoff` of `strconv.ParseUint` for base 10: the smallest number whose
tenfold exceeds `maxUint64`. -/
def cutoff : Nat := maxUint64 / 10 + 1

/-- The test `'0' <= c && c <= '9'` of `strconv.ParseUint` on a byte. -/
def isDecimalDigit (c : Char) : Bool := '0'.toNat ≤ c.toNat && c.toNat ≤ '9'.toNat

/-- The loop of `strconv.ParseUint(s0, 10, 64)` over the bytes left, with the
number `n` read so far: a byte that is not a decimal digit is a syntax
error with value 0 (a letter is a digit not below the base), and an overflow
of `n * 10` or of `n + d` is a range error with value `maxUint64`. -/
def parseUintLoop (s0 : Str) (bytes : Str) (n : Nat) : Nat × Option NumError :=
  match bytes with
  | [] => (n, none)
  | c :: rest =>
    if isDecimalDigit c then
      let d := c.toNat - '0'.toNat
      if n ≥ cutoff then (maxUint64, some (NumError.ErrRange s0))
      else
        let n10 := (n * 10) % 2 ^ 64
        let n1 := (n10 + d) % 2 ^ 64
        if n1 < n10 ∨ n1 > maxUint64 then (maxUint64, some (NumError.ErrRange s0))
        else parseUintLoop s0 rest n1
    else (0, some (NumError.ErrSyntax s0))

/-- Go `strconv.ParseUint(s, 10, 64)`: the value and the error. -/
def ParseUint (s : Str) : Nat × Option NumError :=
  if s = [] then (0, some (NumError.ErrSyntax s))
  else parseUintLoop s s 0

end strconv

/-- The source's `interface2uint64` (lines 56-79): the number and the error
returned. The conversion `uint64(xnum)` of a signed integer is its value
modulo `2^64`. -/
def interface2uint64 (input : Input) : Nat × Option NumError :=
  match input with
  | .uint64 xnum => (xnum, none)
  | .float64 converted => (converted, none)
  | .int xnum => ((xnum % 2 ^ 64).toNat, none)
  | .int64 xnum => ((xnum % 2 ^ 64).toNat, none)
  | .string xnum => strconv.ParseUint xnum
  | other => (0, some (NumError.cannotConvert other))

/-- The loop of `counter` (lines 90-93): while `i < num`, `i` is appended to
`result` and incremented; `fuel` bounds the number of iterations. -/
def counterLoop (num : Nat) (fuel : Nat) (i : Nat) (result : List Nat) : List Nat :=
  match fuel with
  | 0 => result
  | fuel + 1 =>
    if i < num then counterLoop num fuel ((i + 1) % 2 ^ 64) (result ++ [i])
    else result

/-- The source's `counter` (lines 87-95): the sequence and the error returned.
The error of the normaliser is not looked at before the loop; the loop
makes at most `num` iterations, which is the fuel given. -/
def counter (input : Input) : List Nat × Option NumError :=
  let r := interface2uint64 input
  (counterLoop r.1 r.1 0 [], r.2)

/-- The outcome of a template function returning `(value, error)`: the pair
returned, or a run-time panic. -/
inductive Outcome (α : Type) where
  | returns (value : α) (err : Option NumError) : Outcome α
  | panic : Outcome α
  deriving DecidableEq, Repr

/-- The Go slice expression `s[low:high]` on a string with indices of an
unsigned type: the bytes from `low` up to `high`, and a run-time panic
unless `low <= high <= len(s)`. -/
def sliceString (s : Str) (low high : Nat) : Option Str :=
  if low ≤ high ∧ high ≤ s.length then some ((s.drop low).take (high - low)) else none

/-- The Go conversion `int(i)` of a `uint64` to the 64 bit `int`: values from
`2^63` on wrap around to negative ones. -/
def toInt (i : Nat) : Int := if i < 2 ^ 63 then (i : Int) else (i : Int) - 2 ^ 64

/-- The result of an `int` operation whose exact value is `x`: the value
wrapped into `-2^63 .. 2^63 - 1`. -/
def wrapInt (x : Int) : Int := (x + 2 ^ 63) % 2 ^ 64 - 2 ^ 63

/-- The Go slice expression `s[low:]` on a string with an `int` index: the
bytes from `low` on, and a run-time panic unless `0 <= low <= len(s)`. -/
def sliceFrom (s : Str) (low : Int) : Option Str :=
  if 0 ≤ low ∧ low ≤ (s.length : Int) then some (s.drop low.toNat) else none

/-- The source's `left` (lines 97-103). -/
def left (s : Str) (input : Input) : Outcome Str :=
  match interface2uint64 input with
  | (_, some err) => Outcome.returns [] (some err)
  | (i, none) =>
    match sliceString s 0 i with
    | some r => Outcome.returns r none
    | none => Outcome.panic

/-- The source's `right` (lines 105-111). -/
def right (s : Str) (input : Input) : Outcome Str :=
  match interface2uint64 input with
  | (_, some err) => Outcome.returns [] (some err)
  | (i, none) =>
    match sliceFrom s (wrapInt ((s.length : Int) - toInt i)) with
    | some r => Outcome.returns r none
    | none => Outcome.panic

/-- The source's `mid` (lines 113-123); the sum `b+l` is a `uint64` sum. -/
def mid (s : Str) (inputb inputl : Input) : Outcome Str :=
  match interface2uint64 inputb with
  | (_, some err) => Outcome.returns [] (some err)
  | (b, none) =>
    match interface2uint64 inputl with
    | (_, some err) => Outcome.returns [] (some err)
    | (l, none) =>
      match sliceString s b ((b + l) % 2 ^ 64) with
      | some r => Outcome.returns r none
      | none => Outcome.panic

/-- The source's `add` (lines 125-137): the named result is still 0 when an
operand fails; the sum is a `uint64` sum. -/
def add (a b : Input) : Nat × Option NumError :=
  match interface2uint64 a with
  | (_, some err) => (0, some err)
  | (ax, none) =>
    match interface2uint64 b with
    | (_, some err) => (0, some err)
    | (bx, none) => ((ax + bx) % 2 ^ 64, none)

/-- The source's `sub` (lines 139-151): the difference is a `uint64` difference. -/
def sub (a b : Input) : Nat × Option NumError :=
  match interface2uint64 a with
  | (_, some err) => (0, some err)
  | (ax, none) =>
    match interface2uint64 b with
    | (_, some err) => (0, some err)
    | (bx, none) => ((ax + 2 ^ 64 - bx) % 2 ^ 64, none)

/-- The base-10 value of a text read as a sequence of decimal digits. -/
def decimalValue (s : Str) : Nat :=
  s.foldl (fun n c => n * 10 + (c.toNat - '0'.toNat)) 0

/-- The dynamic types the normaliser accepts: `uint64`, `float64`, `int`,
`int64` and `string`. -/
def Input.accepted : Input → Bool
  | .uint64 _ => true
  | .float64 _ => true
  | .int _ => true
  | .int64 _ => true
  | .string _ => true
  | _ => false

/-! ## Standard output, lines 326-327 -/

/-- The decimal digits of `n` put before `acc`, most significant first; `fuel`
bounds the number of digits. -/
def decimalFrom (fuel : Nat) (n : Nat) (acc : Str) : Str :=
  match fuel with
  | 0 => acc
  | fuel + 1 =>
    if n < 10 then Char.ofNat ('0'.toNat + n) :: acc
    else decimalFrom fuel (n / 10) (Char.ofNat ('0'.toNat + n % 10) :: acc)

/-- The decimal form of a number, as `fmt` prints an integer. -/
def decimal (n : Nat) : Str := decimalFrom (n + 1) n []

namespace fmt

/-- Go `fmt.Fprint(out, b)` for one operand `b` of type `[]byte`, as the text
written to `out`: the default format of a byte slice is the list of the byte
values in decimal, separated by spaces, in square brackets. -/
def Fprint (b : Str) : Str :=
  '[' :: strings.Join (b.map (fun c => decimal c.toNat)) [' '] ++ [']']

end fmt

/-- What an action of the callback writes to standard output without the
template engine, given the content `ioutil.ReadFile` finds at each path:
`printFile` (lines 326-327) writes `fmt.Fprint(out, regularFileContent)`. -/
def writtenVerbatim (ReadFile : Str → Str) (a : Action) : Option Str :=
  match a with
  | .printFile currentPath => some (fmt.Fprint (ReadFile currentPath))
  | _ => none

/-! ## The whole walk, lines 237-344 -/

namespace filepath

/-- Go `filepath.Dir(path)`: the path without its last element, cleaned. -/
def Dir (path : Str) : Str := Clean (path.reverse.dropWhile (fun c => c ≠ '/')).reverse

end filepath

/-- The loop over the roots (lines 266-344) on a file tree without read errors:
the actions of the callback, in order. `Lstat` gives the node at a root; at a
root it does not find the callback returns the error and the loop ends. -/
def walkRoots (inputFlags : FlagsType) (c : Classification) (Lstat : Str → Option Node)
    (roots : List Str) : List Action :=
  match roots with
  | [] => []
  | templateFileOrDir :: rest =>
    match Lstat templateFileOrDir with
    | none => []
    | some node =>
      (Walk templateFileOrDir node).map (fun e => walkFn inputFlags c templateFileOrDir e.1 e.2)
        ++ walkRoots inputFlags c Lstat rest

/-- The actions of `RunRoot` after the dictionary build (lines 237-344): the
`os.MkdirAll` of the output path when the source is not a simple file and
the output path does not exist (line 255), nothing when such a source meets
an output path that is not a directory (line 261), and the actions of the
walk over the comma-separated roots. -/
def RunRootActions (inputFlags : FlagsType) (Stat : StatFn) (Lstat : Str → Option Node)
    (templateInput : Str) : List Action :=
  let c := classify inputFlags Stat templateInput
  let walk := walkRoots inputFlags c Lstat (strings.Split templateInput ',')
  if inputFlags.Output ≠ [] then
    if (c.templateIsComplex || c.templateIsDir) && (Stat inputFlags.Output).isNone then
      Action.MkdirAll inputFlags.Output :: walk
    else if (c.templateIsComplex || c.templateIsDir) && (Stat inputFlags.Output).isSome
        && !c.outputIsDir then []
    else walk
  else walk

/-- The directories `os.MkdirAll(path)` makes sure of: the path, its
directory, the directory of that, and so on, `fuel` steps far. -/
def dirChain (fuel : Nat) (path : Str) : List Str :=
  match fuel with
  | 0 => []
  | fuel + 1 => path :: dirChain fuel (filepath.Dir path)

/-- The directory of the destination `d` is the output directory itself or is
made by one of the `os.MkdirAll` steps among the `earlier` actions. -/
def parentMade (output : Str) (earlier : List Action) (d : Str) : Bool :=
  filepath.Dir d = filepath.Clean output ||
    earlier.any (fun a =>
      match a with
      | .MkdirAll x => (dirChain (x.length + 1) (filepath.Clean x)).contains (filepath.Dir d)
      | _ => false)

/-- Every file action of the list, after the `earlier` actions, has the
directory of its destination made before it. -/
def parentsMade (output : Str) (earlier : List Action) (actions : List Action) : Bool :=
  match actions with
  | [] => true
  | a :: rest =>
    (match a with
      | .Link _ d => parentMade output earlier d
      | .execute _ (some d) => parentMade output earlier d
      | _ => true) && parentsMade output (earlier ++ [a]) rest

/-- An `os.Lstat` that finds the listed nodes. -/
def lstatOf (nodes : List (Str × Node)) : Str → Option Node :=
  fun p => (nodes.find? (fun e => e.1 = p)).map (fun e => e.2)

/-! ## Concrete inputs -/

/-- An `os.Stat` that knows the listed directories and files and fails elsewhere. -/
def statOf (dirs files : List Str) : StatFn :=
  fun p => if p ∈ dirs then some true else if p ∈ files then some false else none

/-- Flags with only an output path, the default extension and `--all` as given. -/
def outFlags (output : String) (all : Bool) : FlagsType :=
  { Env := false, File := [], String := [], List := [], Map := [], Output := output.toList,
    Extension := ".template".toList, All := all }

/-- The entries `a.txt`, `sub` (holding `y.template`) and `x.template`. -/
def exEntries : Entries :=
  .cons "a.txt".toList .file
    (.cons "sub".toList (.dir (.cons "y.template".toList .file .nil))
      (.cons "x.template".toList .file .nil))

/-- A directory holding `a.txt`, `sub/y.template` and `x.template`. -/
def exTree : Node := .dir exEntries

/-- The dictionary of a build, empty when the build failed. -/
def dictOf {γ : Type} (r : Except BuildError (Dict γ)) : Dict γ :=
  match r with
  | .ok d => d
  | .error _ => Dict.empty

/-- Flags of a run with every source enabled. -/
def exFlags : FlagsType :=
  { Env := true, File := "conf.yaml".toList, String := "a,b,c".toList, List := "b,c".toList,
    Map := "c".toList, Output := [], Extension := ".template".toList, All := false }

/-- An environment with the variables `a`, `b`, `c` and `k`. -/
def exProcess : Process :=
  { Environ := ["a=1".toList, "b=x,y".toList, "c=p=1,q=2=3".toList, "k=fromenv".toList]
    Getenv := fun name =>
      if name = "a".toList then "1".toList
      else if name = "b".toList then "x,y".toList
      else if name = "c".toList then "p=1,q=2=3".toList
      else if name = "k".toList then "fromenv".toList
      else [] }

/-- A decoded configuration file with the top-level keys `k`, `c` and `extra`. -/
def exViper : Viper Unit :=
  { ReadInConfig := none, ReadInConfigToml := none,
    AllSettings := [("k".toList, Value.str "fromfile".toList), ("c".toList, Value.cfg ()),
      ("extra".toList, Value.str "filled".toList)] }

/-- The dictionary of the run `exFlags`, `exProcess`, `exViper`. -/
def exDict : Dict Unit := dictOf (buildDictionary exFlags exProcess exViper)

/-- Flags of a run with `--env` and `--file` only. -/
def envFileFlags : FlagsType :=
  { Env := true, File := "conf.yaml".toList, String := [], List := [], Map := [], Output := [],
    Extension := ".template".toList, All := false }

/-- An environment with the single variable `k`. -/
def envFileProcess : Process :=
  { Environ := ["k=fromenv".toList]
    Getenv := fun name => if name = "k".toList then "fromenv".toList else [] }

/-- A decoded configuration file with the single top-level key `k`. -/
def envFileViper : Viper Unit :=
  { ReadInConfig := none, ReadInConfigToml := none,
    AllSettings := [("k".toList, Value.str "fromfile".toList)] }

/-- The compound source `a.template,dir/b.template`: `os.Stat` knows the two
files and fails on the whole argument and on the output path. -/
def multiStat : StatFn := statOf [] ["a.template".toList, "dir/b.template".toList]

/-- The nodes `os.Lstat` finds for the source `a.template,dir/b.template`. -/
def multiLstat : Str → Option Node :=
  lstatOf [("a.template".toList, Node.file), ("dir/b.template".toList, Node.file)]

/-! # Theorems -/

/-! ## Lemmas on the dictionary build -/

theorem foldl_set_apply {γ : Type} (f : Str → Value γ) (names : List Str) (d : Dict γ) (k : Str) :
    (names.foldl (fun d envVar => d.set envVar (f envVar)) d) k
      = if k ∈ names then some (f k) else d k := by
  induction names generalizing d with
  | nil => simp
  | cons n rest ih =>
    rw [List.foldl_cons, ih]
    by_cases hk : k ∈ rest
    · simp [hk]
    · by_cases hn : k = n
      · subst hn; simp [hk, Dict.set]
      · simp [hk, hn, Dict.set]

theorem readString_apply {γ : Type} (inputFlags : FlagsType) (os : Process) (d : Dict γ) (k : Str) :
    readString inputFlags os d k
      = if listed inputFlags.String k then some (Value.str (os.Getenv k)) else d k := by
  unfold readString listed
  by_cases h : inputFlags.String = []
  · simp [h]
  · simp only [ne_eq, h, not_false_eq_true, if_true, true_and]
    exact foldl_set_apply (fun n => Value.str (os.Getenv n)) _ d k

theorem readList_apply {γ : Type} (inputFlags : FlagsType) (os : Process) (d : Dict γ) (k : Str) :
    readList inputFlags os d k
      = if listed inputFlags.List k then some (Value.list (strings.Split (os.Getenv k) ','))
        else d k := by
  unfold readList listed
  by_cases h : inputFlags.List = []
  · simp [h]
  · simp only [ne_eq, h, not_false_eq_true, if_true, true_and]
    exact foldl_set_apply (fun n => Value.list (strings.Split (os.Getenv n) ',')) _ d k

theorem readMapVars_apply {γ : Type} (os : Process) (names : List Str) (d d' : Dict γ) (k : Str)
    (h : readMapVars os names d = .ok d') :
    (k ∈ names → ∃ m, readMapVar os k = .ok m ∧ d' k = some (Value.map m)) ∧
    (k ∉ names → d' k = d k) := by
  induction names generalizing d with
  | nil =>
    simp only [readMapVars, Except.ok.injEq] at h
    subst h; simp
  | cons n rest ih =>
    rw [readMapVars] at h
    cases hn : readMapVar os n with
    | error e => rw [hn] at h; simp at h
    | ok m =>
      rw [hn] at h
      simp only at h
      have ih' := ih _ h
      constructor
      · intro hk
        by_cases hr : k ∈ rest
        · exact ih'.1 hr
        · have hkn : k = n := by
            rcases List.mem_cons.mp hk with h1 | h1
            · exact h1
            · exact absurd h1 hr
          subst hkn
          exact ⟨m, hn, by rw [ih'.2 hr]; simp [Dict.set]⟩
      · intro hk
        have h1 : k ≠ n := fun e => hk (by simp [e])
        have h2 : k ∉ rest := fun e => hk (by simp [e])
        rw [ih'.2 h2]; simp [Dict.set, h1]

theorem readMap_apply {γ : Type} (inputFlags : FlagsType) (os : Process) (d d' : Dict γ) (k : Str)
    (h : readMap inputFlags os d = .ok d') :
    (listed inputFlags.Map k → ∃ m, readMapVar os k = .ok m ∧ d' k = some (Value.map m)) ∧
    (¬ listed inputFlags.Map k → d' k = d k) := by
  unfold readMap at h
  unfold listed
  by_cases hM : inputFlags.Map = []
  · simp only [hM, ne_eq, not_true_eq_false, if_false, Except.ok.injEq] at h
    subst h; simp [hM]
  · simp only [ne_eq, hM, not_false_eq_true, if_true] at h
    have := readMapVars_apply os _ d d' k h
    simpa [hM] using this

theorem buildDictionary_ok {γ : Type} (inputFlags : FlagsType) (os : Process) (viper : Viper γ)
    (d : Dict γ) (h : buildDictionary inputFlags os viper = .ok d) :
    ∃ d2, readFile inputFlags viper (readEnv inputFlags os) = .ok d2 ∧
      readMap inputFlags os (readList inputFlags os (readString inputFlags os d2)) = .ok d := by
  unfold buildDictionary at h
  cases hf : readFile inputFlags viper (readEnv inputFlags os) with
  | error e => rw [hf] at h; simp at h
  | ok d2 => rw [hf] at h; exact ⟨d2, rfl, h⟩

theorem readEnvVar_apply {γ : Type} (d : Dict γ) (envVar k : Str) (v : Value γ)
    (h : readEnvVar d envVar k = some v) : d k = some v ∨ ∃ txt, v = Value.str txt := by
  unfold readEnvVar at h
  split at h
  · exact Or.inl h
  · unfold Dict.set at h
    split at h
    · right; exact ⟨_, (Option.some.inj h).symm⟩
    · exact Or.inl h

theorem foldl_readEnvVar_apply {γ : Type} (vars : List Str) (d : Dict γ) (k : Str) (v : Value γ)
    (h : vars.foldl readEnvVar d k = some v) : d k = some v ∨ ∃ txt, v = Value.str txt := by
  induction vars generalizing d with
  | nil => exact Or.inl h
  | cons e rest ih =>
    rcases ih _ h with h1 | h1
    · exact readEnvVar_apply d e k v h1
    · exact Or.inr h1

theorem readEnv_str {γ : Type} (inputFlags : FlagsType) (os : Process) (k : Str) (v : Value γ)
    (h : (readEnv inputFlags os : Dict γ) k = some v) : ∃ txt, v = Value.str txt := by
  unfold readEnv at h
  split at h
  · rcases foldl_readEnvVar_apply _ _ k v h with h1 | h1
    · simp [Dict.empty] at h1
    · exact h1
  · simp [Dict.empty] at h

theorem readSetting_other {γ : Type} (d : Dict γ) (kv : Str × Value γ) (k : Str) (h : k ≠ kv.1) :
    readSetting d kv k = d k := by
  unfold readSetting
  split
  · simp [Dict.set, h]
  · rfl

theorem readSettings_not_key {γ : Type} (settings : List (Str × Value γ)) (d : Dict γ) (k : Str)
    (h : k ∉ settings.map Prod.fst) : readSettings d settings k = d k := by
  induction settings generalizing d with
  | nil => rfl
  | cons kv rest ih =>
    simp only [List.map_cons, List.mem_cons, not_or] at h
    show readSettings (readSetting d kv) rest k = d k
    rw [ih _ h.2, readSetting_other d kv k h.1]

theorem readSettings_present {γ : Type} (settings : List (Str × Value γ)) (d : Dict γ) (k : Str)
    (h : (d.index k).isNil = false) : readSettings d settings k = d k := by
  induction settings generalizing d with
  | nil => rfl
  | cons kv rest ih =>
    have hstep : readSetting d kv k = d k := by
      by_cases hk : k = kv.1
      · subst hk; unfold readSetting; simp [h]
      · exact readSetting_other d kv k hk
    show readSettings (readSetting d kv) rest k = d k
    rw [ih (readSetting d kv) (by unfold Dict.index; rw [hstep]; exact h), hstep]

theorem readFile_present {γ : Type} (inputFlags : FlagsType) (viper : Viper γ) (d d2 : Dict γ)
    (k : Str) (h : readFile inputFlags viper d = .ok d2) (hk : (d.index k).isNil = false) :
    d2 k = d k := by
  unfold readFile at h
  split at h
  · split at h
    · cases h; exact readSettings_present _ d k hk
    · split at h
      · cases h; exact readSettings_present _ d k hk
      · cases h
    · cases h
  · cases h; rfl

/-! ## Lemmas on `strings` and `filepath` -/

theorem Split_ne_nil (s : Str) (sep : Char) : strings.Split s sep ≠ [] := by
  cases s with
  | nil => simp [strings.Split]
  | cons c t =>
    unfold strings.Split
    split
    · simp
    · split <;> simp

theorem Split_append (a b : Str) (sep : Char) :
    strings.Split (a ++ sep :: b) sep = strings.Split a sep ++ strings.Split b sep := by
  induction a with
  | nil => simp [strings.Split]
  | cons c t ih =>
    rw [List.cons_append]
    by_cases hc : c = sep
    · simp [strings.Split, hc, ih]
    · have h1 : strings.Split (c :: (t ++ sep :: b)) sep
          = match strings.Split (t ++ sep :: b) sep with
            | [] => [[c]]
            | h :: r => (c :: h) :: r := by
        rw [strings.Split]; simp [hc]
      have h2 : strings.Split (c :: t) sep
          = match strings.Split t sep with
            | [] => [[c]]
            | h :: r => (c :: h) :: r := by
        rw [strings.Split]; simp [hc]
      rw [h1, h2, ih]
      cases hs : strings.Split t sep with
      | nil => exact absurd hs (Split_ne_nil t sep)
      | cons h r => simp

theorem Split_of_not_mem (s : Str) (sep : Char) (h : sep ∉ s) : strings.Split s sep = [s] := by
  induction s with
  | nil => simp [strings.Split]
  | cons c t ih =>
    simp only [List.mem_cons, not_or] at h
    have hc : ¬ c = sep := fun e => h.1 e.symm
    rw [strings.Split]
    simp [hc, ih h.2]

theorem takeWhile_append_stop {α : Type} (p : α → Bool) (l1 l2 : List α) (x : α) (hx : p x = false) :
    (l1 ++ x :: l2).takeWhile p = l1.takeWhile p := by
  induction l1 with
  | nil => simp [List.takeWhile, hx]
  | cons a t ih =>
    simp only [List.cons_append, List.takeWhile_cons, ih]

theorem takeWhile_all {α : Type} (p : α → Bool) (l : List α) (h : ∀ x ∈ l, p x = true) :
    l.takeWhile p = l := by
  induction l with
  | nil => rfl
  | cons a t ih =>
    simp only [List.takeWhile_cons, h a (List.mem_cons_self _ _), if_true]
    rw [ih (fun x hx => h x (List.mem_cons_of_mem _ hx))]

theorem lastElem_append_slash (a b : Str) : lastElem (a ++ '/' :: b) = lastElem b := by
  unfold lastElem
  have : (a ++ '/' :: b).reverse = b.reverse ++ '/' :: a.reverse := by simp
  rw [this]
  by_cases hb : '/' ∈ b
  · obtain ⟨s, t, hst⟩ := List.append_of_mem (List.mem_reverse.mpr hb)
    rw [hst, List.append_assoc, List.cons_append,
      takeWhile_append_stop _ s _ '/' (by simp), takeWhile_append_stop _ s _ '/' (by simp)]
  · rw [takeWhile_append_stop _ _ _ '/' (by simp)]

theorem lastElem_of_not_mem (b : Str) (hb : '/' ∉ b) : lastElem b = b := by
  unfold lastElem
  rw [takeWhile_all, List.reverse_reverse]
  intro x hx
  have : x ≠ '/' := fun e => hb (e ▸ List.mem_reverse.mp hx)
  simp [this]

theorem lastElem_not_mem (p : Str) : '/' ∉ lastElem p := by
  unfold lastElem
  intro h
  have := List.mem_takeWhile_imp (List.mem_reverse.mp h)
  simp at this

/-- A path ends with its last element, after nothing or after a `/`. -/
theorem lastElem_decomp (p : Str) :
    p = lastElem p ∨ ∃ a, p = a ++ '/' :: lastElem p := by
  unfold lastElem
  have h := List.takeWhile_append_dropWhile (fun c => decide (c ≠ '/')) p.reverse
  cases hd : p.reverse.dropWhile (fun c => decide (c ≠ '/')) with
  | nil =>
    left
    rw [hd, List.append_nil] at h
    rw [h, List.reverse_reverse]
  | cons x r =>
    right
    have hx : x = '/' := by
      have := List.head_dropWhile_not (fun c => decide (c ≠ '/')) p.reverse (by rw [hd]; simp)
      simp only [hd, List.head_cons] at this
      simpa using this
    subst hx
    refine ⟨r.reverse, ?_⟩
    rw [hd] at h
    have h2 := congrArg List.reverse h
    rw [List.reverse_reverse] at h2
    conv_lhs => rw [← h2]
    simp

theorem isFileName_iff (name : Str) :
    isFileName name = true ↔ name ≠ [] ∧ name ≠ ['.'] ∧ name ≠ ['.', '.'] ∧ '/' ∉ name := by
  unfold isFileName
  simp [and_assoc]

theorem Split_lastElem (p : Str) : ∃ X, strings.Split p '/' = X ++ [lastElem p] := by
  rcases lastElem_decomp p with h | ⟨a, h⟩
  · refine ⟨[], ?_⟩
    rw [List.nil_append]
    conv_lhs => rw [h]
    exact Split_of_not_mem _ _ (lastElem_not_mem p)
  · refine ⟨strings.Split a '/', ?_⟩
    conv_lhs => rw [h]
    rw [Split_append, Split_of_not_mem _ _ (lastElem_not_mem p)]

theorem cleanElem_fileName (rooted : Bool) (out : List Str) (name : Str)
    (h : isFileName name = true) : filepath.cleanElem rooted out name = name :: out := by
  obtain ⟨h1, h2, h3, -⟩ := (isFileName_iff name).mp h
  unfold filepath.cleanElem
  simp [h1, h2, h3]

theorem Join_append_singleton (ys : List Str) (name : Str) (h : '/' ∉ name) :
    lastElem (strings.Join (ys ++ [name]) ['/']) = name := by
  induction ys with
  | nil => simpa [strings.Join] using lastElem_of_not_mem name h
  | cons y t ih =>
    have hne : t ++ [name] ≠ [] := by simp
    cases ht : t ++ [name] with
    | nil => exact absurd ht hne
    | cons z r =>
      rw [List.cons_append, ht, strings.Join]
      · rw [← ht, List.append_assoc, List.singleton_append, lastElem_append_slash, ih]
      · intro e; simp at e

/-- The function `filepath.Clean` keeps the last element of a path that ends in a file name. -/
theorem lastElem_Clean (p : Str) (h : isFileName (lastElem p) = true) :
    lastElem (filepath.Clean p) = lastElem p := by
  obtain ⟨h1, -, -, h4⟩ := (isFileName_iff _).mp h
  obtain ⟨X, hX⟩ := Split_lastElem p
  have hp : p ≠ [] := by
    intro e; apply h1; rw [e]; rfl
  unfold filepath.Clean filepath.fromElems filepath.cleanElems
  simp only [hp, if_false, hX, List.foldl_append, List.foldl_cons, List.foldl_nil,
    cleanElem_fileName _ _ _ h, List.reverse_cons]
  have key := Join_append_singleton
    ((List.foldl (filepath.cleanElem (filepath.isRooted p)) [] X).reverse) (lastElem p) h4
  split
  · have := lastElem_append_slash []
      (strings.Join ((List.foldl (filepath.cleanElem (filepath.isRooted p)) [] X).reverse
        ++ [lastElem p]) ['/'])
    rw [List.nil_append] at this
    rw [this, key]
  · split
    · rename_i hnil
      rw [hnil] at key
      exact absurd key.symm h1
    · exact key

theorem lastElem_Join (a name : Str) (h : isFileName name = true) :
    lastElem (filepath.Join a name) = name := by
  obtain ⟨h1, -, -, h4⟩ := (isFileName_iff _).mp h
  unfold filepath.Join
  by_cases ha : a = []
  · simp only [ha, ne_eq, not_true_eq_false, if_false, h1, not_false_eq_true, if_true]
    rw [lastElem_Clean] <;> rw [lastElem_of_not_mem name h4]
    exact h
  · simp only [ne_eq, ha, not_false_eq_true, if_true]
    rw [lastElem_Clean] <;> rw [lastElem_append_slash, lastElem_of_not_mem name h4]
    exact h

theorem lastElem_Join_path (a p : Str) (ha : a ≠ []) (h : isFileName (lastElem p) = true) :
    lastElem (filepath.Join a p) = lastElem p := by
  unfold filepath.Join
  simp only [ne_eq, ha, not_false_eq_true, if_true]
  rw [lastElem_Clean] <;> rw [lastElem_append_slash]
  exact h

theorem extScan_append (l1 l2 acc : Str) (h1 : '/' ∉ l1) (h2 : l2 = [] ∨ ∃ r, l2 = '/' :: r) :
    filepath.extScan (l1 ++ l2) acc = filepath.extScan l1 acc := by
  induction l1 generalizing acc with
  | nil =>
    rcases h2 with h2 | ⟨r, h2⟩ <;> subst h2 <;> simp [filepath.extScan]
  | cons c t ih =>
    simp only [List.mem_cons, not_or] at h1
    rw [List.cons_append, filepath.extScan, filepath.extScan]
    have hc : ¬ c = '/' := fun e => h1.1 e.symm
    simp only [hc, if_false]
    split
    · rfl
    · exact ih _ h1.2

/-- The function `filepath.Ext` reads the last element of the path only. -/
theorem Ext_lastElem (p : Str) : filepath.Ext p = filepath.Ext (lastElem p) := by
  rcases lastElem_decomp p with h | ⟨a, h⟩
  · rw [← h]
  · conv_lhs => rw [h]
    unfold filepath.Ext
    have : (a ++ '/' :: lastElem p).reverse = (lastElem p).reverse ++ '/' :: a.reverse := by simp
    rw [this, extScan_append _ _ _ (by simpa using lastElem_not_mem p) (Or.inr ⟨_, rfl⟩)]

theorem extScan_suffix (rev acc : Str) : ∃ t, t ++ filepath.extScan rev acc = rev.reverse ++ acc := by
  induction rev generalizing acc with
  | nil => exact ⟨acc, by simp [filepath.extScan]⟩
  | cons c r ih =>
    rw [filepath.extScan]
    split
    · exact ⟨_, List.append_nil _⟩
    · split
      · rename_i hc
        exact ⟨r.reverse, by simp [hc]⟩
      · obtain ⟨t, ht⟩ := ih (c :: acc)
        exact ⟨t, by rw [ht]; simp⟩

/-- The extension is a suffix of the path: cutting off as many bytes as the
extension has and appending the extension gives the path back. -/
theorem take_append_Ext (p : Str) :
    p.take (p.length - (filepath.Ext p).length) ++ filepath.Ext p = p := by
  obtain ⟨t, ht⟩ := extScan_suffix p.reverse []
  rw [List.reverse_reverse, List.append_nil] at ht
  change t ++ filepath.Ext p = p at ht
  have hlen : p.length = t.length + (filepath.Ext p).length := by
    conv_lhs => rw [← ht]
    simp
  have htake : p.take (p.length - (filepath.Ext p).length) = t := by
    rw [hlen, Nat.add_sub_cancel]
    conv_lhs => rw [← ht]
    simp
  rw [htake, ht]

/-! ## The paths `filepath.Walk` visits -/

mutual
theorem Walk_file_name : ∀ (node : Node) (root : Str), node.wellNamed = true →
    rootFits root node = true → ∀ p, (p, false) ∈ Walk root node →
    isFileName (lastElem p) = true
  | .file, root, _, hr, p, hmem => by
    simp only [Walk, List.mem_singleton, Prod.mk.injEq, and_true] at hmem
    subst hmem
    simpa [rootFits] using hr
  | .dir entries, root, hn, _, p, hmem => by
    simp only [Walk, List.mem_cons, Prod.mk.injEq, Bool.false_eq_true, and_false,
      false_or] at hmem
    exact WalkEntries_file_name entries root (by simpa [Node.wellNamed] using hn) p hmem
theorem WalkEntries_file_name : ∀ (entries : Entries) (path : Str),
    entries.wellNamed = true → ∀ p, (p, false) ∈ WalkEntries path entries →
    isFileName (lastElem p) = true
  | .nil, _, _, p, hmem => by
    simp [WalkEntries] at hmem
  | .cons name node rest, path, hn, p, hmem => by
    simp only [Entries.wellNamed, Bool.and_eq_true] at hn
    simp only [WalkEntries, List.mem_append] at hmem
    rcases hmem with hmem | hmem
    · refine Walk_file_name node (filepath.Join path name) hn.1.2 ?_ p hmem
      cases node with
      | file => simp only [rootFits]; rw [lastElem_Join path name hn.1.1]; exact hn.1.1
      | dir es => rfl
    · exact WalkEntries_file_name rest path hn.2 p hmem
end

/-- The extension of the joined destination is the extension of the walked file. -/
theorem Ext_Join_path (a p : Str) (ha : a ≠ []) (h : isFileName (lastElem p) = true) :
    filepath.Ext (filepath.Join a p) = filepath.Ext p := by
  rw [Ext_lastElem (filepath.Join a p), lastElem_Join_path a p ha h, ← Ext_lastElem]

/-! ## The element list of `filepath.Clean` -/

theorem Split_elem_not_mem (s : Str) (sep : Char) : ∀ e ∈ strings.Split s sep, sep ∉ e := by
  induction s with
  | nil => simp [strings.Split]
  | cons c t ih =>
    intro e he
    rw [strings.Split] at he
    split at he
    · rcases List.mem_cons.mp he with h | h
      · subst h; simp
      · exact ih e h
    · rename_i hc
      cases hs : strings.Split t sep with
      | nil => exact absurd hs (Split_ne_nil t sep)
      | cons h r =>
        rw [hs] at he ih
        simp only [List.mem_cons] at he
        rcases he with h1 | h1
        · subst h1
          have := ih h (List.mem_cons_self _ _)
          simp only [List.mem_cons, not_or]
          exact ⟨fun e => hc e.symm, this⟩
        · exact ih e (List.mem_cons_of_mem _ h1)

theorem allDots_cleanStack (out : List Str) (h : out.all (fun x => x = ['.', '.']) = true) :
    cleanStack false out = true := by
  induction out with
  | nil => rfl
  | cons e below ih =>
    simp only [List.all_cons, Bool.and_eq_true, decide_eq_true_eq] at h
    rw [cleanStack]
    simp [h.1, h.2]

theorem cleanStack_below (rooted : Bool) (e : Str) (below : List Str)
    (h : cleanStack rooted (e :: below) = true) : cleanStack rooted below = true := by
  rw [cleanStack] at h
  split at h
  · simp only [Bool.and_eq_true, Bool.not_eq_true'] at h
    rw [h.1]
    exact allDots_cleanStack below h.2
  · simp only [Bool.and_eq_true] at h
    exact h.2

theorem cleanElem_cleanStack (rooted : Bool) (out : List Str) (e : Str)
    (hout : cleanStack rooted out = true) (he : '/' ∉ e) :
    cleanStack rooted (filepath.cleanElem rooted out e) = true := by
  unfold filepath.cleanElem
  split
  · exact hout
  · rename_i h1
    simp only [not_or] at h1
    split
    · rename_i h2
      cases out with
      | nil =>
        cases rooted with
        | true => rfl
        | false => subst h2; simp [cleanStack]
      | cons top below =>
        simp only
        split
        · rename_i h3
          subst h3
          rw [cleanStack] at hout
          simp only [if_true, Bool.and_eq_true, Bool.not_eq_true'] at hout
          rw [cleanStack]
          simp [h2, hout.1, hout.2]
        · exact cleanStack_below rooted top below hout
    · rename_i h2
      rw [cleanStack]
      simp only [h2, if_false, Bool.and_eq_true]
      exact ⟨(isFileName_iff e).mpr ⟨h1.1, h1.2, h2, he⟩, hout⟩

theorem foldl_cleanStack (rooted : Bool) (xs : List Str) (out : List Str)
    (hout : cleanStack rooted out = true) (hxs : ∀ e ∈ xs, '/' ∉ e) :
    cleanStack rooted (xs.foldl (filepath.cleanElem rooted) out) = true := by
  induction xs generalizing out with
  | nil => exact hout
  | cons e r ih =>
    exact ih _ (cleanElem_cleanStack rooted out e hout (hxs e (List.mem_cons_self _ _)))
      (fun x hx => hxs x (List.mem_cons_of_mem _ hx))

theorem cleanElems_cleanStack (p : Str) :
    cleanStack (filepath.isRooted p) (filepath.cleanElems p) = true :=
  foldl_cleanStack _ _ [] rfl (Split_elem_not_mem p '/')

/-- Reading the kept elements again, first element first, keeps them all. -/
theorem foldl_cleanElem_reverse (rooted : Bool) (out : List Str)
    (h : cleanStack rooted out = true) :
    out.reverse.foldl (filepath.cleanElem rooted) [] = out := by
  induction out with
  | nil => rfl
  | cons e below ih =>
    rw [List.reverse_cons, List.foldl_append, ih (cleanStack_below rooted e below h)]
    simp only [List.foldl_cons, List.foldl_nil]
    rw [cleanStack] at h
    split at h
    · rename_i he
      simp only [Bool.and_eq_true, Bool.not_eq_true'] at h
      subst he
      unfold filepath.cleanElem
      cases below with
      | nil => simp [h.1]
      | cons top r =>
        simp only [List.all_cons, Bool.and_eq_true, decide_eq_true_eq] at h
        simp [h.2.1]
    · simp only [Bool.and_eq_true] at h
      exact cleanElem_fileName rooted below e h.1

theorem cleanStack_elem (rooted : Bool) (out : List Str) (h : cleanStack rooted out = true) :
    ∀ e ∈ out, e ≠ [] ∧ '/' ∉ e := by
  induction out with
  | nil => simp
  | cons e below ih =>
    intro x hx
    rcases List.mem_cons.mp hx with hx | hx
    · subst hx
      rw [cleanStack] at h
      split at h
      · rename_i he; subst he; simp
      · simp only [Bool.and_eq_true] at h
        obtain ⟨h1, -, -, h4⟩ := (isFileName_iff x).mp h.1
        exact ⟨h1, h4⟩
    · exact ih (cleanStack_below rooted e below h) x hx

theorem Join_cons_cons (x y : Str) (r : List Str) (sep : Str) :
    strings.Join (x :: y :: r) sep = x ++ sep ++ strings.Join (y :: r) sep := by
  rw [strings.Join]
  intro e; simp at e

theorem Join_append (xs ys : List Str) (sep : Str) (hx : xs ≠ []) (hy : ys ≠ []) :
    strings.Join (xs ++ ys) sep = strings.Join xs sep ++ sep ++ strings.Join ys sep := by
  induction xs with
  | nil => exact absurd rfl hx
  | cons x t ih =>
    cases t with
    | nil =>
      cases ys with
      | nil => exact absurd rfl hy
      | cons y r => simp [Join_cons_cons, strings.Join]
    | cons z r =>
      rw [List.cons_append, List.cons_append, Join_cons_cons, Join_cons_cons,
        ← List.cons_append, ih (by simp)]
      simp [List.append_assoc]

theorem Join_ne_nil (xs : List Str) (sep : Str) (hx : xs ≠ []) (h : ∀ e ∈ xs, e ≠ []) :
    strings.Join xs sep ≠ [] := by
  cases xs with
  | nil => exact absurd rfl hx
  | cons x t =>
    have hx0 := h x (List.mem_cons_self _ _)
    cases t with
    | nil => simpa [strings.Join] using hx0
    | cons y r =>
      rw [Join_cons_cons]
      simp [hx0]

theorem Split_Join (xs : List Str) (hx : xs ≠ []) (h : ∀ e ∈ xs, '/' ∉ e) :
    strings.Split (strings.Join xs ['/']) '/' = xs := by
  induction xs with
  | nil => exact absurd rfl hx
  | cons x t ih =>
    cases t with
    | nil =>
      simp only [strings.Join]
      exact Split_of_not_mem x '/' (h x (List.mem_cons_self _ _))
    | cons y r =>
      rw [Join_cons_cons, List.append_assoc, List.singleton_append, Split_append,
        Split_of_not_mem x '/' (h x (List.mem_cons_self _ _)),
        ih (by simp) (fun e he => h e (List.mem_cons_of_mem _ he))]
      rfl

theorem head_Join_ne_slash (xs : List Str) (h : ∀ e ∈ xs, e ≠ [] ∧ '/' ∉ e) :
    (strings.Join xs ['/']).head? ≠ some '/' := by
  cases xs with
  | nil => simp [strings.Join]
  | cons x t =>
    obtain ⟨h1, h2⟩ := h x (List.mem_cons_self _ _)
    cases x with
    | nil => exact absurd rfl h1
    | cons c cs =>
      have hc : c ≠ '/' := fun e => h2 (by simp [e])
      cases t with
      | nil => simpa [strings.Join] using hc
      | cons y r =>
        rw [Join_cons_cons]
        simpa using hc

/-- The path written for a kept element list has that element list and the
same rootedness: `filepath.Clean` does not change its own results. -/
theorem cleanElems_fromElems (rooted : Bool) (out : List Str)
    (h : cleanStack rooted out = true) :
    filepath.isRooted (filepath.fromElems rooted out) = rooted ∧
    filepath.cleanElems (filepath.fromElems rooted out) = out := by
  have helem := cleanStack_elem rooted out h
  have hrev : ∀ e ∈ out.reverse, e ≠ [] ∧ '/' ∉ e :=
    fun e he => helem e (List.mem_reverse.mp he)
  cases rooted with
  | true =>
    have hr : filepath.isRooted (filepath.fromElems true out) = true := by
      simp [filepath.fromElems, filepath.isRooted]
    refine ⟨hr, ?_⟩
    unfold filepath.cleanElems
    rw [hr]
    have hsplit : strings.Split (filepath.fromElems true out) '/'
        = [] :: strings.Split (strings.Join out.reverse ['/']) '/' := by
      simp [filepath.fromElems, strings.Split]
    rw [hsplit, List.foldl_cons]
    have h0 : filepath.cleanElem true [] [] = [] := by simp [filepath.cleanElem]
    rw [h0]
    cases hout : out with
    | nil => simp [strings.Join, strings.Split, filepath.cleanElem]
    | cons e below =>
      rw [← hout, Split_Join _ (by simp [hout]) (fun e he => (hrev e he).2)]
      exact foldl_cleanElem_reverse true out h
  | false =>
    cases hout : out with
    | nil => decide
    | cons e below =>
      have hne : strings.Join out.reverse ['/'] ≠ [] :=
        Join_ne_nil _ _ (by simp [hout]) (fun e he => (hrev e he).1)
      have hfrom : filepath.fromElems false out = strings.Join out.reverse ['/'] := by
        simp [filepath.fromElems, hne]
      rw [← hout, hfrom]
      have hr : filepath.isRooted (strings.Join out.reverse ['/']) = false := by
        unfold filepath.isRooted
        simpa using head_Join_ne_slash _ hrev
      refine ⟨hr, ?_⟩
      unfold filepath.cleanElems
      rw [hr, Split_Join _ (by simp [hout]) (fun e he => (hrev e he).2)]
      exact foldl_cleanElem_reverse false out h

theorem fromElems_ne_nil (rooted : Bool) (out : List Str) : filepath.fromElems rooted out ≠ [] := by
  unfold filepath.fromElems
  split
  · simp
  · split
    · simp
    · assumption

theorem Clean_fromElems (rooted : Bool) (out : List Str) (h : cleanStack rooted out = true) :
    filepath.Clean (filepath.fromElems rooted out) = filepath.fromElems rooted out := by
  unfold filepath.Clean
  rw [if_neg (fromElems_ne_nil rooted out), (cleanElems_fromElems rooted out h).1,
    (cleanElems_fromElems rooted out h).2]

theorem cleanElems_append_name (q n : Str) (hq : q ≠ []) (hn : isFileName n = true) :
    filepath.isRooted (q ++ '/' :: n) = filepath.isRooted q ∧
    filepath.cleanElems (q ++ '/' :: n) = n :: filepath.cleanElems q := by
  have hr : filepath.isRooted (q ++ '/' :: n) = filepath.isRooted q := by
    cases q with
    | nil => exact absurd rfl hq
    | cons c t => rfl
  refine ⟨hr, ?_⟩
  obtain ⟨-, -, -, h4⟩ := (isFileName_iff n).mp hn
  unfold filepath.cleanElems
  rw [hr, Split_append, Split_of_not_mem n '/' h4, List.foldl_append]
  simp only [List.foldl_cons, List.foldl_nil]
  exact cleanElem_fileName _ _ n hn

/-- The path `filepath.Join(q, n)` for a directory entry name `n`: the
elements kept of `q`, then `n`. -/
theorem Join_name (q n : Str) (hq : q ≠ []) (hn : isFileName n = true) :
    filepath.Join q n = filepath.fromElems (filepath.isRooted q) (n :: filepath.cleanElems q) := by
  unfold filepath.Join filepath.Clean
  simp only [ne_eq, hq, not_false_eq_true, if_true]
  rw [if_neg (by simp), (cleanElems_append_name q n hq hn).1, (cleanElems_append_name q n hq hn).2]

/-! ## The paths visited below a root -/

theorem cleanStack_names (rooted : Bool) (top out : List Str)
    (htop : ∀ n ∈ top, isFileName n = true) (hout : cleanStack rooted out = true) :
    cleanStack rooted (top ++ out) = true := by
  induction top with
  | nil => exact hout
  | cons e t ih =>
    have he := htop e (List.mem_cons_self _ _)
    obtain ⟨-, -, h3, -⟩ := (isFileName_iff e).mp he
    rw [List.cons_append, cleanStack]
    simp only [h3, if_false, Bool.and_eq_true]
    exact ⟨he, ih (fun n hn => htop n (List.mem_cons_of_mem _ hn))⟩

mutual
theorem Walk_below : ∀ (node : Node) (path n : Str), path ≠ [] → isFileName n = true →
    node.wellNamed = true → ∀ p b, (p, b) ∈ Walk (filepath.Join path n) node →
    ∃ names : List Str, names ≠ [] ∧ (∀ x ∈ names, isFileName x = true) ∧
      p = filepath.fromElems (filepath.isRooted path) (names.reverse ++ filepath.cleanElems path)
  | .file, path, n, hp, hn, _, p, b, hmem => by
    simp only [Walk, List.mem_singleton, Prod.mk.injEq] at hmem
    refine ⟨[n], by simp, by simpa using hn, ?_⟩
    rw [hmem.1, Join_name path n hp hn]
    rfl
  | .dir entries, path, n, hp, hn, hw, p, b, hmem => by
    simp only [Walk, List.mem_cons, Prod.mk.injEq] at hmem
    rcases hmem with hmem | hmem
    · refine ⟨[n], by simp, by simpa using hn, ?_⟩
      rw [hmem.1, Join_name path n hp hn]
      rfl
    · have hgood : cleanStack (filepath.isRooted path) (n :: filepath.cleanElems path) = true :=
        cleanStack_names _ [n] _ (by simpa using hn) (cleanElems_cleanStack path)
      have hj := Join_name path n hp hn
      obtain ⟨names, h1, h2, h3⟩ := WalkEntries_below entries (filepath.Join path n)
        (by rw [hj]; exact fromElems_ne_nil _ _) (by simpa [Node.wellNamed] using hw) p b hmem
      rw [hj, (cleanElems_fromElems _ _ hgood).1, (cleanElems_fromElems _ _ hgood).2] at h3
      refine ⟨n :: names, by simp, ?_, ?_⟩
      · intro x hx
        rcases List.mem_cons.mp hx with hx | hx
        · rw [hx]; exact hn
        · exact h2 x hx
      · rw [h3]; simp
theorem WalkEntries_below : ∀ (entries : Entries) (path : Str), path ≠ [] →
    entries.wellNamed = true → ∀ p b, (p, b) ∈ WalkEntries path entries →
    ∃ names : List Str, names ≠ [] ∧ (∀ x ∈ names, isFileName x = true) ∧
      p = filepath.fromElems (filepath.isRooted path) (names.reverse ++ filepath.cleanElems path)
  | .nil, _, _, _, p, b, hmem => by
    simp [WalkEntries] at hmem
  | .cons name node rest, path, hp, hw, p, b, hmem => by
    simp only [Entries.wellNamed, Bool.and_eq_true] at hw
    simp only [WalkEntries, List.mem_append] at hmem
    rcases hmem with hmem | hmem
    · exact Walk_below node path name hp hw.1.1 hw.1.2 p b hmem
    · exact WalkEntries_below rest path hp hw.2 p b hmem
end

theorem replaceFirst_append (old new t : Str) (h : old ≠ []) :
    strings.replaceFirst old new (old ++ t) = new ++ t := by
  cases old with
  | nil => exact absurd rfl h
  | cons c r =>
    rw [List.cons_append, strings.replaceFirst]
    have h1 : (c :: r).isPrefixOf (c :: (r ++ t)) = true := by
      rw [← List.cons_append]
      exact List.isPrefixOf_iff_prefix.mpr (List.prefix_append _ _)
    rw [if_pos h1, ← List.cons_append, List.drop_left]

theorem Replace1_append (old t : Str) (h : old ≠ []) :
    strings.Replace1 (old ++ t) old [] = t := by
  unfold strings.Replace1
  rw [if_neg h, if_neg h, replaceFirst_append old [] t h, List.nil_append]

theorem Clean_double_slash (a b : Str) (ha : a ≠ []) :
    filepath.Clean (a ++ '/' :: '/' :: b) = filepath.Clean (a ++ '/' :: b) := by
  have hr : filepath.isRooted (a ++ '/' :: '/' :: b) = filepath.isRooted (a ++ '/' :: b) := by
    cases a with
    | nil => exact absurd rfl ha
    | cons c t => rfl
  have he : filepath.cleanElems (a ++ '/' :: '/' :: b) = filepath.cleanElems (a ++ '/' :: b) := by
    unfold filepath.cleanElems
    rw [hr, Split_append, Split_append]
    have : strings.Split ('/' :: b) '/' = [] :: strings.Split b '/' := by
      rw [strings.Split]; simp
    rw [this, List.foldl_append, List.foldl_append, List.foldl_cons]
    have h0 : ∀ out, filepath.cleanElem (filepath.isRooted (a ++ '/' :: b)) out [] = out := by
      intro out; simp [filepath.cleanElem]
    rw [h0]
  unfold filepath.Clean
  rw [if_neg (by simp), if_neg (by simp), hr, he]

theorem Join_slash (a b : Str) (ha : a ≠ []) :
    filepath.Join a ('/' :: b) = filepath.Join a b := by
  unfold filepath.Join
  simp only [ne_eq, ha, not_false_eq_true, if_true]
  exact Clean_double_slash a b ha

theorem lastElem_Join_names (names : List Str) (hne : names ≠ [])
    (h : ∀ x ∈ names, isFileName x = true) :
    isFileName (lastElem (strings.Join names ['/'])) = true := by
  obtain ⟨init, last, hsplit⟩ : ∃ init last, names = init ++ [last] :=
    ⟨names.dropLast, names.getLast hne, (List.dropLast_append_getLast hne).symm⟩
  have hlast := h last (by rw [hsplit]; simp)
  obtain ⟨-, -, -, h4⟩ := (isFileName_iff last).mp hlast
  rw [hsplit, Join_append_singleton init last h4]
  exact hlast

/-- The form of a path visited below the root `R`: the cleaned root, a `/`
(unless the cleaned root is `/`), and the entry names joined by `/`. -/
theorem visited_path_form (R : Str) (names : List Str) (hdot : filepath.Clean R ≠ ['.'])
    (hR : R ≠ []) (hne : names ≠ []) (h : ∀ x ∈ names, isFileName x = true) :
    filepath.fromElems (filepath.isRooted R) (names.reverse ++ filepath.cleanElems R)
      = if filepath.Clean R = ['/'] then '/' :: strings.Join names ['/']
        else filepath.Clean R ++ '/' :: strings.Join names ['/'] := by
  have hgood := cleanElems_cleanStack R
  have helem := cleanStack_elem _ _ hgood
  have hC : filepath.Clean R = filepath.fromElems (filepath.isRooted R) (filepath.cleanElems R) := by
    unfold filepath.Clean; rw [if_neg hR]
  rw [hC] at hdot ⊢
  have hrel : strings.Join names ['/'] ≠ [] :=
    Join_ne_nil _ _ hne (fun e he => ((isFileName_iff e).mp (h e he)).1)
  cases hst : filepath.cleanElems R with
  | nil =>
    rw [hst] at hdot
    cases hr : filepath.isRooted R with
    | false => rw [hr] at hdot; exact absurd (by decide) hdot
    | true =>
      simp [filepath.fromElems, strings.Join]
  | cons e below =>
    rw [← hst]
    have hne0 : (filepath.cleanElems R).reverse ≠ [] := by simp [hst]
    have hJ : strings.Join (filepath.cleanElems R).reverse ['/'] ≠ [] :=
      Join_ne_nil _ _ hne0 (fun x hx => (helem x (List.mem_reverse.mp hx)).1)
    have happ : strings.Join ((filepath.cleanElems R).reverse ++ names) ['/']
        = strings.Join (filepath.cleanElems R).reverse ['/'] ++ '/' :: strings.Join names ['/'] := by
      rw [Join_append _ _ _ hne0 hne]; simp
    have happ_ne : strings.Join ((filepath.cleanElems R).reverse ++ names) ['/'] ≠ [] := by
      rw [happ]; simp
    cases hr : filepath.isRooted R with
    | false =>
      simp only [filepath.fromElems, List.reverse_append, List.reverse_reverse, happ_ne, hJ,
        Bool.false_eq_true, if_false]
      rw [happ, if_neg]
      intro e1
      have := head_Join_ne_slash (filepath.cleanElems R).reverse
        (fun x hx => helem x (List.mem_reverse.mp hx))
      rw [e1] at this
      exact this rfl
    | true =>
      simp only [filepath.fromElems, List.reverse_append, List.reverse_reverse, if_true]
      rw [happ, if_neg]
      · simp
      · intro e1
        simp only [List.cons.injEq, true_and] at e1
        exact hJ e1

/-! ## The dir-to-dir destination -/

theorem Clean_Join_names (rooted : Bool) (names : List Str) (hne : names ≠ [])
    (h : ∀ x ∈ names, isFileName x = true) :
    filepath.Clean (if rooted then '/' :: strings.Join names ['/'] else strings.Join names ['/'])
      = if rooted then '/' :: strings.Join names ['/'] else strings.Join names ['/'] := by
  have hrel : strings.Join names ['/'] ≠ [] :=
    Join_ne_nil _ _ hne (fun e he => ((isFileName_iff e).mp (h e he)).1)
  have hgood : cleanStack rooted names.reverse = true := by
    have := cleanStack_names rooted names.reverse [] (fun n hn => h n (List.mem_reverse.mp hn)) rfl
    simpa using this
  have hfrom : filepath.fromElems rooted names.reverse
      = if rooted then '/' :: strings.Join names ['/'] else strings.Join names ['/'] := by
    cases rooted <;> simp [filepath.fromElems, hrel]
  rw [← hfrom]
  exact Clean_fromElems rooted names.reverse hgood

/-- The destination the dir-to-dir block computes (lines 288-294) for a path
visited below a root whose cleaned form is not `.`: the output path joined
with the entry names. -/
theorem dirToDir_destination (O R : Str) (names : List Str) (hO : O ≠ []) (hR : R ≠ [])
    (hdot : filepath.Clean R ≠ ['.']) (hne : names ≠ [])
    (h : ∀ x ∈ names, isFileName x = true) (p : Str)
    (hp : p = filepath.fromElems (filepath.isRooted R)
      (names.reverse ++ filepath.cleanElems R)) :
    p ≠ R ∧ filepath.Clean R ≠ filepath.Clean p ∧
    filepath.Join O (filepath.Clean (strings.Replace1 (filepath.Clean p) (filepath.Clean R) []))
      = filepath.Join O (strings.Join names ['/']) := by
  have hgood : cleanStack (filepath.isRooted R) (names.reverse ++ filepath.cleanElems R) = true :=
    cleanStack_names _ _ _ (fun n hn => h n (List.mem_reverse.mp hn)) (cleanElems_cleanStack R)
  have hclean : filepath.Clean p = p := by
    rw [hp]; exact Clean_fromElems _ _ hgood
  have hform := visited_path_form R names hdot hR hne h
  rw [← hp] at hform
  have hrel : strings.Join names ['/'] ≠ [] :=
    Join_ne_nil _ _ hne (fun e he => ((isFileName_iff e).mp (h e he)).1)
  have hCR : filepath.Clean R ≠ [] := by
    unfold filepath.Clean; rw [if_neg hR]; exact fromElems_ne_nil _ _
  have hne1 : filepath.Clean R ≠ p := by
    intro e
    by_cases hs : filepath.Clean R = ['/']
    · rw [if_pos hs] at hform
      rw [← e, hs] at hform
      simp only [List.cons.injEq, true_and] at hform
      exact hrel hform.symm
    · rw [if_neg hs] at hform
      rw [← e] at hform
      have := congrArg List.length hform
      simp at this
  refine ⟨?_, by rw [hclean]; exact hne1, ?_⟩
  · intro e
    apply hne1
    rw [← hclean, e]
  · rw [hclean]
    by_cases hs : filepath.Clean R = ['/']
    · rw [if_pos hs] at hform
      have hrep : strings.Replace1 p (filepath.Clean R) [] = strings.Join names ['/'] := by
        rw [hform, hs]
        exact Replace1_append ['/'] _ (by simp)
      rw [hrep]
      have := Clean_Join_names false names hne h
      simp only [Bool.false_eq_true, if_false] at this
      rw [this]
    · rw [if_neg hs] at hform
      have hrep : strings.Replace1 p (filepath.Clean R) [] = '/' :: strings.Join names ['/'] := by
        rw [hform]
        exact Replace1_append _ _ hCR
      rw [hrep]
      have := Clean_Join_names true names hne h
      simp only [if_true] at this
      rw [this, Join_slash O _ hO]

theorem Ext_visited (R : Str) (names : List Str) (hR : R ≠ [])
    (hdot : filepath.Clean R ≠ ['.']) (hne : names ≠ [])
    (h : ∀ x ∈ names, isFileName x = true) :
    filepath.Ext (filepath.fromElems (filepath.isRooted R)
      (names.reverse ++ filepath.cleanElems R)) = filepath.Ext (strings.Join names ['/']) := by
  rw [visited_path_form R names hdot hR hne h]
  split
  · rw [Ext_lastElem, ← List.nil_append ('/' :: strings.Join names ['/']),
      lastElem_append_slash, ← Ext_lastElem]
  · rw [Ext_lastElem, lastElem_append_slash, ← Ext_lastElem]

/-- Dir-to-dir projection for a root that does not clean to `.`: with a
single existing directory as source, given as `R`, and an output path, the
root entry is skipped, and every entry visited below it has the form
cleaned root, `/`, relative path `r`; a directory is created at
`filepath.Join(output, r)`, a file whose extension is the configured one is
executed into `filepath.Join(output, r)` without that suffix, and a file with
another extension is linked to `filepath.Join(output, r)`, or executed into
it when `--all` is set. -/
theorem dirToDir_projection (inputFlags : FlagsType) (Stat : StatFn) (templateInput R : Str)
    (entries : Entries) (hO : inputFlags.Output ≠ []) (hsrc : Stat templateInput = some true)
    (hR : R ≠ []) (hdot : filepath.Clean R ≠ ['.']) (hw : entries.wellNamed = true) :
    walkFn inputFlags (classify inputFlags Stat templateInput) R R true = Action.skip ∧
    ∀ p b, (p, b) ∈ WalkEntries R entries →
      ∃ r : Str,
        p = (if filepath.Clean R = ['/'] then '/' :: r else filepath.Clean R ++ '/' :: r) ∧
        (b = true → walkFn inputFlags (classify inputFlags Stat templateInput) R p b
            = Action.MkdirAll (filepath.Join inputFlags.Output r)) ∧
        (b = false → filepath.Ext p = inputFlags.Extension →
          ∃ dest, walkFn inputFlags (classify inputFlags Stat templateInput) R p b
              = Action.execute p (some dest) ∧
            dest ++ inputFlags.Extension = filepath.Join inputFlags.Output r) ∧
        (b = false → filepath.Ext p ≠ inputFlags.Extension → inputFlags.All = false →
          walkFn inputFlags (classify inputFlags Stat templateInput) R p b
            = Action.Link p (filepath.Join inputFlags.Output r)) ∧
        (b = false → filepath.Ext p ≠ inputFlags.Extension → inputFlags.All = true →
          walkFn inputFlags (classify inputFlags Stat templateInput) R p b
            = Action.execute p (some (filepath.Join inputFlags.Output r))) := by
  constructor
  · simp [walkFn, classify, hO, hsrc]
  · intro p b hmem
    obtain ⟨names, hne, hnames, hp⟩ := WalkEntries_below entries R hR hw p b hmem
    obtain ⟨h1, h2, h3⟩ := dirToDir_destination inputFlags.Output R names hO hR hdot hne hnames p hp
    have hform := visited_path_form R names hdot hR hne hnames
    rw [← hp] at hform
    have hExt : filepath.Ext p = filepath.Ext (strings.Join names ['/']) := by
      rw [hp]; exact Ext_visited R names hR hdot hne hnames
    have hExtD : filepath.Ext (filepath.Join inputFlags.Output (strings.Join names ['/']))
        = filepath.Ext p := by
      rw [hExt]
      exact Ext_Join_path _ _ hO (lastElem_Join_names names hne hnames)
    refine ⟨strings.Join names ['/'], hform, ?_, ?_, ?_, ?_⟩
    · intro hb
      subst hb
      simp [walkFn, classify, hO, hsrc, h1, h2, h3]
    · intro hb hE
      subst hb
      refine ⟨(filepath.Join inputFlags.Output (strings.Join names ['/'])).take
        ((filepath.Join inputFlags.Output (strings.Join names ['/'])).length
          - inputFlags.Extension.length), ?_, ?_⟩
      · simp [walkFn, classify, hO, hsrc, h1, h2, h3, hExtD, hE]
      · have := take_append_Ext (filepath.Join inputFlags.Output (strings.Join names ['/']))
        rw [hExtD, hE] at this
        exact this
    · intro hb hE hall
      subst hb
      simp [walkFn, classify, hO, hsrc, h1, h2, h3, hExtD, hE, hall]
    · intro hb hE hall
      subst hb
      simp [walkFn, classify, hO, hsrc, h1, h2, h3, hExtD, hE, hall]

/-- The dir-to-dir projection at work: below the root `src/`, the file
`src/sub/y.template` is executed into `out/sub/y`. -/
theorem dirToDir_projection_src :
    walkFn (outFlags "out" false)
        (classify (outFlags "out" false) (statOf ["src/".toList] []) "src/".toList)
        "src/".toList "src/sub/y.template".toList false
      = Action.execute "src/sub/y.template".toList (some "out/sub/y".toList) := by
  obtain ⟨r, h0, -, h2, -, -⟩ := (dirToDir_projection (outFlags "out" false)
    (statOf ["src/".toList] []) "src/".toList "src/".toList exEntries (by decide) (by decide)
    (by decide) (by decide) (by decide)).2 "src/sub/y.template".toList false (by decide)
  obtain ⟨dest, h3, h4⟩ := h2 rfl (by decide)
  have hr : r = "sub/y.template".toList := by
    have h5 : "src".toList ++ '/' :: r = "src".toList ++ '/' :: "sub/y.template".toList := by
      rw [if_neg (by decide)] at h0
      exact h0.symm.trans (by decide)
    simpa using h5
  subst hr
  have h6 : dest ++ ".template".toList = "out/sub/y".toList ++ ".template".toList :=
    h4.trans (by decide)
  rw [h3, List.append_cancel_right h6]

/-- Multi-to-dir projection of a file with another extension: with a
compound source and an output path, a visited file `p` whose extension is not
the configured one is linked to `filepath.Join(output, p)` when `--all` is
unset, and executed into `filepath.Join(output, p)` when it is set. -/
theorem multiToDir_other_extension (inputFlags : FlagsType) (Stat : StatFn)
    (templateInput root : Str) (node : Node) (hO : inputFlags.Output ≠ [])
    (hsrc : Stat templateInput = none) (hn : node.wellNamed = true)
    (hr : rootFits root node = true) (p : Str) (hmem : (p, false) ∈ Walk root node)
    (hext : filepath.Ext p ≠ inputFlags.Extension) :
    (inputFlags.All = false →
      walkFn inputFlags (classify inputFlags Stat templateInput) root p false
        = Action.Link p (filepath.Join inputFlags.Output p)) ∧
    (inputFlags.All = true →
      walkFn inputFlags (classify inputFlags Stat templateInput) root p false
        = Action.execute p (some (filepath.Join inputFlags.Output p))) := by
  have hname := Walk_file_name node root hn hr p hmem
  have hE : filepath.Ext (filepath.Join inputFlags.Output p) ≠ inputFlags.Extension := by
    rw [Ext_Join_path _ _ hO hname]; exact hext
  constructor
  · intro hall
    simp [walkFn, classify, hO, hsrc, hE, hall]
  · intro hall
    simp [walkFn, classify, hO, hsrc, hE, hall]

/-! ## Lemmas on the normaliser -/

theorem cutoff_eq : strconv.cutoff = 1844674407370955162 := by decide

theorem maxUint64_eq : strconv.maxUint64 = 18446744073709551615 := by decide

theorem digit_le (c : Char) (h : strconv.isDecimalDigit c = true) : c.toNat - '0'.toNat ≤ 9 := by
  unfold strconv.isDecimalDigit at h
  have h0 : '0'.toNat = 48 := by decide
  have h9 : '9'.toNat = 57 := by decide
  rw [h0, h9] at h
  rw [h0]
  simp only [Bool.and_eq_true, decide_eq_true_eq] at h
  omega

theorem foldl_digits_ge (rest : Str) (n : Nat) :
    n ≤ rest.foldl (fun n c => n * 10 + (c.toNat - '0'.toNat)) n := by
  induction rest generalizing n with
  | nil => exact Nat.le_refl n
  | cons c t ih =>
    rw [List.foldl_cons]
    exact Nat.le_trans (by omega) (ih _)

/-- The loop of `strconv.ParseUint` returns no error exactly on decimal digits
whose value, read after `n`, stays below `2^64`, and then returns that value. -/
theorem parseUintLoop_spec (s0 rest : Str) (n : Nat) (hn : n < 2 ^ 64) :
    ((strconv.parseUintLoop s0 rest n).2 = none ↔
      (rest.all strconv.isDecimalDigit = true ∧
        rest.foldl (fun n c => n * 10 + (c.toNat - '0'.toNat)) n < 2 ^ 64)) ∧
    ((strconv.parseUintLoop s0 rest n).2 = none →
      (strconv.parseUintLoop s0 rest n).1
        = rest.foldl (fun n c => n * 10 + (c.toNat - '0'.toNat)) n) ∧
    (strconv.parseUintLoop s0 rest n).1 < 2 ^ 64 := by
  induction rest generalizing n with
  | nil =>
    simp only [strconv.parseUintLoop, List.all_nil, List.foldl_nil, true_and, true_iff,
      implies_true]
    exact ⟨hn, hn⟩
  | cons c t ih =>
    rw [strconv.parseUintLoop]
    by_cases hc : strconv.isDecimalDigit c = true
    · have hd := digit_le c hc
      have hge := foldl_digits_ge t (n * 10 + (c.toNat - '0'.toNat))
      simp only [hc, if_true, List.all_cons, Bool.true_and, List.foldl_cons]
      by_cases hcut : n ≥ strconv.cutoff
      · rw [if_pos hcut]
        rw [cutoff_eq] at hcut
        refine ⟨⟨fun h => by simp at h, fun h => ?_⟩, fun h => by simp at h, ?_⟩
        · exfalso
          have := h.2
          norm_num at this
          omega
        · simp [maxUint64_eq]
      · rw [if_neg hcut]
        rw [cutoff_eq] at hcut
        have h10 : (n * 10) % 2 ^ 64 = n * 10 := Nat.mod_eq_of_lt (by norm_num; omega)
        rw [h10]
        by_cases hov : n * 10 + (c.toNat - '0'.toNat) < 2 ^ 64
        · have h1 : (n * 10 + (c.toNat - '0'.toNat)) % 2 ^ 64 = n * 10 + (c.toNat - '0'.toNat) :=
            Nat.mod_eq_of_lt hov
          rw [h1]
          have hno : ¬ (n * 10 + (c.toNat - '0'.toNat) < n * 10 ∨
              n * 10 + (c.toNat - '0'.toNat) > strconv.maxUint64) := by
            rw [maxUint64_eq]
            norm_num at hov
            omega
          rw [if_neg hno]
          exact ih _ hov
        · have h1 : (n * 10 + (c.toNat - '0'.toNat)) % 2 ^ 64
              = n * 10 + (c.toNat - '0'.toNat) - 2 ^ 64 := by
            rw [Nat.mod_eq_sub_mod (Nat.le_of_not_lt hov)]
            exact Nat.mod_eq_of_lt (by norm_num at hov ⊢; omega)
          rw [h1]
          have hyes : n * 10 + (c.toNat - '0'.toNat) - 2 ^ 64 < n * 10 ∨
              n * 10 + (c.toNat - '0'.toNat) - 2 ^ 64 > strconv.maxUint64 := by
            left
            norm_num at hov ⊢
            omega
          rw [if_pos hyes]
          refine ⟨⟨fun h => by simp at h, fun h => ?_⟩, fun h => by simp at h, ?_⟩
          · exfalso
            have := h.2
            norm_num at this hov
            omega
          · simp [maxUint64_eq]
    · simp [hc]

/-- The function `strconv.ParseUint` in base 10 with 64 bits: no error exactly on a
non-empty sequence of decimal digits whose value is below `2^64`, which is
then the value returned. -/
theorem ParseUint_spec (s : Str) :
    ((strconv.ParseUint s).2 = none ↔
      (s ≠ [] ∧ s.all strconv.isDecimalDigit = true ∧ decimalValue s < 2 ^ 64)) ∧
    ((strconv.ParseUint s).2 = none → (strconv.ParseUint s).1 = decimalValue s) ∧
    (strconv.ParseUint s).1 < 2 ^ 64 := by
  unfold strconv.ParseUint decimalValue
  by_cases hs : s = []
  · simp [hs]
  · rw [if_neg hs]
    have := parseUintLoop_spec s s 0 (by norm_num)
    simpa [hs] using this

theorem interface2uint64_lt (input : Input) (h : input.inRange = true) :
    (interface2uint64 input).1 < 2 ^ 64 := by
  cases input with
  | uint64 xnum => simpa [Input.inRange, interface2uint64] using h
  | float64 converted => simpa [Input.inRange, interface2uint64] using h
  | int xnum =>
    simp only [interface2uint64]
    have h1 : xnum % 2 ^ 64 < 2 ^ 64 := Int.emod_lt_of_pos _ (by norm_num)
    have h2 : 0 ≤ xnum % 2 ^ 64 := Int.emod_nonneg _ (by norm_num)
    omega
  | int64 xnum =>
    simp only [interface2uint64]
    have h1 : xnum % 2 ^ 64 < 2 ^ 64 := Int.emod_lt_of_pos _ (by norm_num)
    have h2 : 0 ≤ xnum % 2 ^ 64 := Int.emod_nonneg _ (by norm_num)
    omega
  | string xnum => exact (ParseUint_spec xnum).2.2
  | nil => simp [interface2uint64]
  | bool b => simp [interface2uint64]
  | list xs => simp [interface2uint64]
  | map m => simp [interface2uint64]

theorem counterLoop_eq (num fuel i : Nat) (result : List Nat) (hnum : num < 2 ^ 64)
    (hi : i ≤ num) (hfuel : num - i ≤ fuel) :
    counterLoop num fuel i result = result ++ List.range' i (num - i) := by
  induction fuel generalizing i result with
  | zero =>
    have : num - i = 0 := by omega
    simp [counterLoop, this]
  | succ f ih =>
    rw [counterLoop]
    by_cases hlt : i < num
    · rw [if_pos hlt]
      have hmod : (i + 1) % 2 ^ 64 = i + 1 := Nat.mod_eq_of_lt (by omega)
      rw [hmod, ih (i + 1) (result ++ [i]) (by omega) (by omega)]
      have : num - i = (num - (i + 1)) + 1 := by omega
      rw [this, List.range'_succ]
      simp
    · rw [if_neg hlt]
      have : num - i = 0 := by omega
      simp [this]

/-- The sequence `counter` returns is `0, 1, ..., num - 1` for the number
`num` the normaliser returns, with or without an error. -/
theorem counter_eq (input : Input) (h : input.inRange = true) :
    counter input = (List.range (interface2uint64 input).1, (interface2uint64 input).2) := by
  unfold counter
  simp only
  rw [counterLoop_eq _ _ 0 [] (interface2uint64_lt input h) (Nat.zero_le _) (by omega)]
  simp [List.range_eq_range']

theorem counter_snd (input : Input) : (counter input).2 = (interface2uint64 input).2 := rfl

theorem counter_length (input : Input) (h : input.inRange = true) :
    (counter input).1.length = (interface2uint64 input).1 := by
  rw [counter_eq input h]
  exact List.length_range _

/-- With an input that normalises to `n` without error, `counter` returns the
sequence `0, 1, ..., n - 1` and no error. -/
theorem counter_of_ok (input : Input) (n : Nat) (h : input.inRange = true)
    (hn : interface2uint64 input = (n, none)) : counter input = (List.range n, none) := by
  rw [counter_eq input h, hn]

/-! ## Lemmas on the map source -/

theorem Split_length_iff (s : Str) (sep : Char) : 2 ≤ (strings.Split s sep).length ↔ sep ∈ s := by
  constructor
  · intro h
    by_contra hn
    rw [Split_of_not_mem s sep hn] at h
    simp at h
  · intro h
    obtain ⟨a, b, hab⟩ := List.append_of_mem h
    rw [hab, Split_append, List.length_append]
    have h1 : (strings.Split a sep).length ≠ 0 := by
      intro e; exact Split_ne_nil a sep (List.length_eq_zero.mp e)
    have h2 : (strings.Split b sep).length ≠ 0 := by
      intro e; exact Split_ne_nil b sep (List.length_eq_zero.mp e)
    omega

theorem Join_Split (s : Str) (sep : Char) : strings.Join (strings.Split s sep) [sep] = s := by
  induction s with
  | nil => simp [strings.Split, strings.Join]
  | cons c t ih =>
    rw [strings.Split]
    cases hs : strings.Split t sep with
    | nil => exact absurd hs (Split_ne_nil t sep)
    | cons h r =>
      rw [hs] at ih
      by_cases hc : c = sep
      · simp only [hc, if_true]
        rw [Join_cons_cons, ih]
        simp
      · simp only [hc, if_false]
        cases r with
        | nil =>
          simp only [strings.Join] at ih ⊢
          rw [ih]
        | cons y r2 =>
          rw [Join_cons_cons] at ih ⊢
          rw [← ih]
          simp

/-- An item with an `=` is its key, an `=`, and its value; the key has no `=`. -/
theorem item_key_value (item : Str) (h : '=' ∈ item) :
    (strings.Split item '=').headD [] ++ '=' :: strings.Join (strings.Split item '=').tail ['=']
      = item ∧
    '=' ∉ (strings.Split item '=').headD [] := by
  have hlen := (Split_length_iff item '=').mpr h
  have hj := Join_Split item '='
  cases hs : strings.Split item '=' with
  | nil => rw [hs] at hlen; simp at hlen
  | cons k r =>
    cases r with
    | nil => rw [hs] at hlen; simp at hlen
    | cons v r2 =>
      rw [hs, Join_cons_cons] at hj
      refine ⟨by simpa using hj, ?_⟩
      have := Split_elem_not_mem item '=' k (by rw [hs]; simp)
      simpa using this

theorem mapGet_mapSet (m : List (Str × Str)) (k v k2 : Str) :
    mapGet (mapSet m k v) k2 = if k = k2 then some v else mapGet m k2 := by
  induction m with
  | nil => simp [mapSet, mapGet]
  | cons e r ih =>
    obtain ⟨k0, v0⟩ := e
    rw [mapSet]
    by_cases h0 : k0 = k
    · subst h0
      simp only [if_true, mapGet]
      by_cases h1 : k0 = k2 <;> simp [h1]
    · simp only [h0, if_false, mapGet, ih]
      by_cases h1 : k0 = k2
      · subst h1
        simp [h0, Ne.symm h0]
      · simp [h1]

theorem readMapItems_ok_iff (envVar : Str) (items : List Str) (tempMap : List (Str × Str)) :
    (∃ m, readMapItems envVar items tempMap = .ok m) ↔ ∀ item ∈ items, '=' ∈ item := by
  induction items generalizing tempMap with
  | nil => simp [readMapItems]
  | cons item rest ih =>
    rw [readMapItems]
    by_cases h : '=' ∈ item
    · have hlen := (Split_length_iff item '=').mpr h
      simp only [Nat.not_lt.mpr hlen, if_false, ih, List.mem_cons, forall_eq_or_imp, h, true_and]
    · have hlen : (strings.Split item '=').length < 2 := by
        by_contra hn
        exact h ((Split_length_iff item '=').mp (by omega))
      simp [hlen, h]

theorem readMapItems_error (envVar : Str) (pre : List Str) (item : Str) (post : List Str)
    (tempMap : List (Str × Str)) (hpre : ∀ x ∈ pre, '=' ∈ x) (hitem : '=' ∉ item) :
    readMapItems envVar (pre ++ item :: post) tempMap
      = .error (BuildError.errorsNew (missingEquals envVar item)) := by
  induction pre generalizing tempMap with
  | nil =>
    have hlen : (strings.Split item '=').length < 2 := by
      by_contra hn
      exact hitem ((Split_length_iff item '=').mp (by omega))
    rw [List.nil_append, readMapItems]
    simp [hlen]
  | cons x r ih =>
    have hx := hpre x (List.mem_cons_self _ _)
    have hlen := (Split_length_iff x '=').mpr hx
    rw [List.cons_append, readMapItems]
    simp only [Nat.not_lt.mpr hlen, if_false]
    exact ih _ (fun y hy => hpre y (List.mem_cons_of_mem _ hy))

theorem readMapItems_other (envVar : Str) (items : List Str) (tempMap m : List (Str × Str))
    (k : Str) (h : readMapItems envVar items tempMap = .ok m)
    (hk : ∀ x ∈ items, (strings.Split x '=').headD [] ≠ k) : mapGet m k = mapGet tempMap k := by
  induction items generalizing tempMap with
  | nil =>
    simp only [readMapItems, Except.ok.injEq] at h
    rw [h]
  | cons item rest ih =>
    rw [readMapItems] at h
    split at h
    · cases h
    · rw [ih _ h (fun x hx => hk x (List.mem_cons_of_mem _ hx)), mapGet_mapSet,
        if_neg (hk item (List.mem_cons_self _ _))]

theorem readMapItems_last (envVar : Str) (pre : List Str) (item : Str) (post : List Str)
    (tempMap m : List (Str × Str)) (h : readMapItems envVar (pre ++ item :: post) tempMap = .ok m)
    (hpost : ∀ x ∈ post, (strings.Split x '=').headD [] ≠ (strings.Split item '=').headD []) :
    mapGet m ((strings.Split item '=').headD [])
      = some (strings.Join (strings.Split item '=').tail ['=']) := by
  induction pre generalizing tempMap with
  | nil =>
    rw [List.nil_append, readMapItems] at h
    split at h
    · cases h
    · rw [readMapItems_other envVar post _ m _ h hpost, mapGet_mapSet, if_pos rfl]
  | cons x r ih =>
    rw [List.cons_append, readMapItems] at h
    split at h
    · cases h
    · exact ih _ h

/-! ## Lemmas on standard output -/

theorem decimalFrom_length (fuel n : Nat) (acc : Str) :
    acc.length + 1 ≤ (decimalFrom (fuel + 1) n acc).length := by
  induction fuel generalizing n acc with
  | zero =>
    rw [decimalFrom]
    split
    · simp
    · simp [decimalFrom]
  | succ f ih =>
    rw [decimalFrom]
    split
    · simp
    · have := ih (n / 10) (Char.ofNat ('0'.toNat + n % 10) :: acc)
      simp only [List.length_cons] at this
      omega

theorem decimal_length (n : Nat) : 1 ≤ (decimal n).length := by
  have := decimalFrom_length n n []
  simpa [decimal] using this

theorem length_Join_ge (xs : List Str) (sep : Str) (h : ∀ x ∈ xs, 1 ≤ x.length) :
    xs.length ≤ (strings.Join xs sep).length := by
  induction xs with
  | nil => simp [strings.Join]
  | cons e r ih =>
    have he := h e (List.mem_cons_self _ _)
    have hr := ih (fun x hx => h x (List.mem_cons_of_mem _ hx))
    cases r with
    | nil => simpa [strings.Join] using he
    | cons y r2 =>
      rw [Join_cons_cons]
      simp only [List.length_append, List.length_cons] at hr ⊢
      omega

/-- The text `fmt.Fprint` writes for a byte slice is longer than the slice. -/
theorem Fprint_length (b : Str) : b.length + 2 ≤ (fmt.Fprint b).length := by
  unfold fmt.Fprint
  have h := length_Join_ge (b.map (fun c => decimal c.toNat)) [' '] (by
    intro x hx
    obtain ⟨c, -, hc⟩ := List.mem_map.mp hx
    rw [← hc]
    exact decimal_length _)
  simp only [List.length_map] at h
  simp only [List.length_cons, List.length_append, List.length_nil]
  omega

/-- The directory of every destination is made in the runs on the directory
`exTree` given as `src/` and as `.` with the output path `out`. -/
theorem parentsMade_dir_source :
    parentsMade "out".toList []
        (RunRootActions (outFlags "out" false) (statOf ["src/".toList] [])
          (lstatOf [("src/".toList, exTree)]) "src/".toList) = true ∧
      parentsMade "out".toList []
        (RunRootActions (outFlags "out" false) (statOf [".".toList] [])
          (lstatOf [(".".toList, exTree)]) ".".toList) = true := by
  decide

/-- The spec's examples of `counter`: `counter(0)` is empty and `counter(3)` is
`0, 1, 2`; a text that is not a number gives the error and the empty sequence. -/
theorem counter_examples :
    counter (Input.int 0) = ([], none) ∧ counter (Input.int 3) = ([0, 1, 2], none) ∧
      counter (Input.string "x".toList) = ([], some (NumError.ErrSyntax "x".toList)) := by
  decide

/-- Multi-to-dir destinations: with a compound source (`os.Stat` fails on the
whole argument) and an output path, the callback attempts, for every
directory visited as `p`, the `os.MkdirAll` of `filepath.Join(output, p)`, and
for every file visited as `p` whose extension is the configured one, the
execution into `filepath.Join(output, p)` without that extension suffix; `p`
is the visited path itself, nothing of the root is removed. Whether the file
can be created there is not part of this statement. -/
theorem multiToDir_destination (inputFlags : FlagsType) (Stat : StatFn) (templateInput root : Str)
    (node : Node) (hO : inputFlags.Output ≠ []) (hsrc : Stat templateInput = none)
    (hn : node.wellNamed = true) (hr : rootFits root node = true)
    (p : Str) (isDir : Bool) (hmem : (p, isDir) ∈ Walk root node) :
    (isDir = true →
      walkFn inputFlags (classify inputFlags Stat templateInput) root p isDir
        = Action.MkdirAll (filepath.Join inputFlags.Output p)) ∧
    (isDir = false → filepath.Ext p = inputFlags.Extension →
      ∃ dest, walkFn inputFlags (classify inputFlags Stat templateInput) root p isDir
          = Action.execute p (some dest) ∧
        dest ++ inputFlags.Extension = filepath.Join inputFlags.Output p) := by
  constructor
  · intro hd
    subst hd
    simp [walkFn, classify, hO, hsrc]
  · intro hd hext
    subst hd
    have hname := Walk_file_name node root hn hr p hmem
    have hE : filepath.Ext (filepath.Join inputFlags.Output p) = inputFlags.Extension := by
      rw [Ext_Join_path _ _ hO hname, hext]
    refine ⟨(filepath.Join inputFlags.Output p).take
      ((filepath.Join inputFlags.Output p).length - inputFlags.Extension.length), ?_, ?_⟩
    · simp [walkFn, classify, hO, hsrc, hE]
    · have := take_append_Ext (filepath.Join inputFlags.Output p)
      rw [hE] at this
      exact this

/-- The destination computed for `dir/b.template` of the source
`a.template,dir/b.template` with output `out` is `out/dir/b`. -/
theorem multiToDir_destination_example :
    walkFn (outFlags "out" false)
        (classify (outFlags "out" false) (statOf [] ["a.template".toList, "dir/b.template".toList])
          "a.template,dir/b.template".toList)
        "dir/b.template".toList "dir/b.template".toList false
      = Action.execute "dir/b.template".toList (some "out/dir/b".toList) := by
  obtain ⟨dest, h1, h2⟩ := (multiToDir_destination (outFlags "out" false)
    (statOf [] ["a.template".toList, "dir/b.template".toList]) "a.template,dir/b.template".toList
    "dir/b.template".toList Node.file (by decide) (by decide) (by decide) (by decide)
    "dir/b.template".toList false (by decide)).2 rfl (by decide)
  have h3 : dest ++ ".template".toList = "out/dir/b".toList ++ ".template".toList :=
    h2.trans (by decide)
  rw [h1, List.append_cancel_right h3]

/-- The directory of every destination is made in the run on the compound
source `a.template,src`, with the directory `exTree` at `src`, and the output
path `out`: a file root without a directory part, and a directory root. -/
theorem parentsMade_compound_dir_root :
    parentsMade "out".toList []
      (RunRootActions (outFlags "out" false) (statOf ["src".toList] ["a.template".toList])
        (lstatOf [("src".toList, exTree), ("a.template".toList, Node.file)])
        "a.template,src".toList) = true := by
  decide

/-! ## The claims -/

/-- Claim C1. After a successful dictionary build, a name listed in `--map` holds
the map parsed from its variable; otherwise a name listed in `--list` holds
the comma-split list of its variable; otherwise a name listed in `--string`
holds the text of its variable -- whatever the environment snapshot and the
configuration file hold for that name. -/
theorem C1_map_list_string_precedence {γ : Type} (inputFlags : FlagsType) (os : Process)
    (viper : Viper γ) (d : Dict γ) (k : Str)
    (h : buildDictionary inputFlags os viper = .ok d) :
    (listed inputFlags.Map k →
      ∃ m, readMapVar os k = .ok m ∧ d k = some (Value.map m)) ∧
    (¬ listed inputFlags.Map k → listed inputFlags.List k →
      d k = some (Value.list (strings.Split (os.Getenv k) ','))) ∧
    (¬ listed inputFlags.Map k → ¬ listed inputFlags.List k → listed inputFlags.String k →
      d k = some (Value.str (os.Getenv k))) := by
  obtain ⟨d2, -, hm⟩ := buildDictionary_ok inputFlags os viper d h
  have hmap := readMap_apply inputFlags os _ d k hm
  refine ⟨hmap.1, ?_, ?_⟩
  · intro h1 h2
    rw [hmap.2 h1, readList_apply, if_pos h2]
  · intro h1 h2 h3
    rw [hmap.2 h1, readList_apply, if_neg h2, readString_apply, if_pos h3]

/-- Witness of claim C1: in the run `exFlags`, the name `c` is listed in `--map`,
`--list` and `--string`, and is a key of the environment and of the
configuration file; the dictionary holds its parsed map. -/
theorem C1_map_list_string_precedence_witness :
    ∃ m, readMapVar exProcess "c".toList = .ok m ∧ exDict "c".toList = some (Value.map m) :=
  (C1_map_list_string_precedence exFlags exProcess exViper exDict "c".toList (by rfl)).1
    (by decide)

/-- Claim C2. A key written by the environment snapshot that is not named by
`--string`, `--list` or `--map` keeps the environment text in the final
dictionary, also when the configuration file has it as a top-level key; and
the loop over the settings of the configuration file (whose keys are
distinct) writes an entry exactly when its key is absent from the dictionary
at that moment. -/
theorem C2_env_beats_file {γ : Type} (inputFlags : FlagsType) (os : Process) (viper : Viper γ)
    (d : Dict γ) (h : buildDictionary inputFlags os viper = .ok d)
    (hkeys : (viper.AllSettings.map Prod.fst).Nodup) :
    (∀ k v, (readEnv inputFlags os : Dict γ) k = some v →
      k ∈ viper.AllSettings.map Prod.fst →
      ¬ listed inputFlags.String k → ¬ listed inputFlags.List k → ¬ listed inputFlags.Map k →
      (∃ txt, v = Value.str txt) ∧ d k = some v) ∧
    (∀ pre kv post, viper.AllSettings = pre ++ kv :: post →
      readSettings (readEnv inputFlags os) (pre ++ [kv]) =
        if (readSettings (readEnv inputFlags os) pre kv.1).isNone
        then (readSettings (readEnv inputFlags os) pre).set kv.1 kv.2
        else readSettings (readEnv inputFlags os) pre) := by
  constructor
  · intro k v hv _ hs hl hm
    obtain ⟨txt, htxt⟩ := readEnv_str inputFlags os k v hv
    refine ⟨⟨txt, htxt⟩, ?_⟩
    obtain ⟨d2, hf, hmap⟩ := buildDictionary_ok inputFlags os viper d h
    have h1 := (readMap_apply inputFlags os _ d k hmap).2 hm
    rw [h1, readList_apply, if_neg hl, readString_apply, if_neg hs,
      readFile_present inputFlags viper _ d2 k hf (by simp [Dict.index, hv, htxt, Value.isNil]), hv]
  · intro pre kv post hsplit
    have hnot : kv.1 ∉ pre.map Prod.fst := by
      rw [hsplit] at hkeys
      simp only [List.map_append, List.map_cons] at hkeys
      have := (List.nodup_append.mp hkeys).2.2
      intro hmem
      exact this hmem (List.mem_cons_self _ _)
    have hpre := readSettings_not_key pre (readEnv inputFlags os) kv.1 hnot
    have hstep : readSettings (readEnv inputFlags os) (pre ++ [kv])
        = readSetting (readSettings (readEnv inputFlags os) pre) kv := by
      simp [readSettings, List.foldl_append]
    rw [hstep]
    unfold readSetting
    cases hcase : (readEnv inputFlags os : Dict γ) kv.1 with
    | none => simp [Dict.index, hpre, hcase, Value.isNil]
    | some v =>
      obtain ⟨txt, htxt⟩ := readEnv_str inputFlags os kv.1 v hcase
      simp [Dict.index, hpre, hcase, htxt, Value.isNil]

/-- Witness of claim C2: in the run `exFlags`, the key `k` is set by the
environment and by the configuration file and keeps the environment text. -/
theorem C2_env_beats_file_witness : exDict "k".toList = some (Value.str "fromenv".toList) :=
  ((C2_env_beats_file exFlags exProcess exViper exDict (by rfl) (by decide)).1 "k".toList
    (Value.str "fromenv".toList) (by decide) (by decide) (by decide) (by decide) (by decide)).2

/-- Claim C3. With `--env` and `--file` only, and the key `k` set to `fromenv` by
the environment and to `fromfile` by the configuration file, the build
succeeds and the dictionary holds `fromenv` for `k`, not `fromfile`: the
configuration file does not take priority over the environment. -/
theorem C3_file_does_not_override_env :
    buildDictionary envFileFlags envFileProcess envFileViper
        = .ok (dictOf (buildDictionary envFileFlags envFileProcess envFileViper)) ∧
      dictOf (buildDictionary envFileFlags envFileProcess envFileViper) "k".toList
        = some (Value.str "fromenv".toList) ∧
      dictOf (buildDictionary envFileFlags envFileProcess envFileViper) "k".toList
        ≠ some (Value.str "fromfile".toList) :=
  ⟨by rfl, by decide, by decide⟩

/-- Claim C4. With the source directory given as `.` and output `out`, the walk
visits the file `x.template` of the directory as `x.template`; the callback
removes the first `.` of that path and links the file to `out/xtemplate`,
where the claim has it executed into `out/x`. Given as `src/`, the same file
is visited as `src/x.template` and executed into `out/x`. -/
theorem C4_dot_root_strips_first_dot :
    ("x.template".toList, false) ∈ Walk ".".toList exTree ∧
      filepath.Ext "x.template".toList = (outFlags "out" false).Extension ∧
      walkFn (outFlags "out" false)
          (classify (outFlags "out" false) (statOf [".".toList] []) ".".toList)
          ".".toList "x.template".toList false
        = Action.Link "x.template".toList "out/xtemplate".toList ∧
      ("src/x.template".toList, false) ∈ Walk "src/".toList exTree ∧
      walkFn (outFlags "out" false)
          (classify (outFlags "out" false) (statOf ["src/".toList] []) "src/".toList)
          "src/".toList "src/x.template".toList false
        = Action.execute "src/x.template".toList (some "out/x".toList) := by
  decide

/-- Claim C5. With the compound source `a.template,dir/b.template` and the
output path `out`, neither `out` nor `out/dir` existing, the callback
computes for the visited file `dir/b.template` the destination `out/dir/b`
the claim names; the steps of the run before it are the `os.MkdirAll` of
`out` and the execution of `a.template` into `out/a`, and none of them makes
the directory `out/dir`: the file cannot be created there, and nothing is
rendered to `out/dir/b`. -/
theorem C5_example_destination_directory_missing :
    multiStat "out".toList = none ∧ multiStat "out/dir".toList = none ∧
    Walk "dir/b.template".toList Node.file = [("dir/b.template".toList, false)] ∧
    filepath.Ext "dir/b.template".toList = (outFlags "out" false).Extension ∧
    walkFn (outFlags "out" false)
        (classify (outFlags "out" false) multiStat "a.template,dir/b.template".toList)
        "dir/b.template".toList "dir/b.template".toList false
      = Action.execute "dir/b.template".toList (some "out/dir/b".toList) ∧
    RunRootActions (outFlags "out" false) multiStat multiLstat "a.template,dir/b.template".toList
      = [Action.MkdirAll "out".toList, Action.execute "a.template".toList (some "out/a".toList)]
        ++ [Action.execute "dir/b.template".toList (some "out/dir/b".toList)] ∧
    dirChain ("out".toList.length + 1) (filepath.Clean "out".toList)
      = ["out".toList, ".".toList, ".".toList, ".".toList] ∧
    filepath.Dir "out/dir/b".toList ≠ filepath.Clean "out".toList ∧
    filepath.Dir "out/dir/b".toList
      ∉ dirChain ("out".toList.length + 1) (filepath.Clean "out".toList) := by
  decide

/-- Claim C6. With a simple-file source and an output path that is an existing
directory, the visited file `p` is executed as a template into
`filepath.Join(output, filepath.Base(p))`, with the configured extension
suffix cut off exactly when the extension of that destination is the
configured one (the cut name followed by the extension is the destination),
and into that destination unchanged otherwise. -/
theorem C6_file_into_directory (inputFlags : FlagsType) (Stat : StatFn)
    (templateInput root p : Str) (hO : inputFlags.Output ≠ [])
    (hsrc : Stat templateInput = some false) (hout : Stat inputFlags.Output = some true) :
    (filepath.Ext (filepath.Join inputFlags.Output (filepath.Base p)) = inputFlags.Extension →
      ∃ dest, walkFn inputFlags (classify inputFlags Stat templateInput) root p false
          = Action.execute p (some dest) ∧
        dest ++ inputFlags.Extension = filepath.Join inputFlags.Output (filepath.Base p)) ∧
    (filepath.Ext (filepath.Join inputFlags.Output (filepath.Base p)) ≠ inputFlags.Extension →
      walkFn inputFlags (classify inputFlags Stat templateInput) root p false
        = Action.execute p (some (filepath.Join inputFlags.Output (filepath.Base p)))) := by
  constructor
  · intro hE
    refine ⟨(filepath.Join inputFlags.Output (filepath.Base p)).take
      ((filepath.Join inputFlags.Output (filepath.Base p)).length
        - inputFlags.Extension.length), ?_, ?_⟩
    · simp [walkFn, classify, hO, hsrc, hout, hE]
    · have := take_append_Ext (filepath.Join inputFlags.Output (filepath.Base p))
      rw [hE] at this
      exact this
  · intro hE
    simp [walkFn, classify, hO, hsrc, hout, hE]

/-- Witness of claim C6: `a.txt.template` into the existing directory `out` is
written to `out/a.txt`. -/
theorem C6_file_into_directory_witness :
    walkFn (outFlags "out" false)
        (classify (outFlags "out" false) (statOf ["out".toList] ["in/a.txt.template".toList])
          "in/a.txt.template".toList)
        "in/a.txt.template".toList "in/a.txt.template".toList false
      = Action.execute "in/a.txt.template".toList (some "out/a.txt".toList) := by
  obtain ⟨dest, h1, h2⟩ := (C6_file_into_directory (outFlags "out" false)
    (statOf ["out".toList] ["in/a.txt.template".toList]) "in/a.txt.template".toList
    "in/a.txt.template".toList "in/a.txt.template".toList (by decide) (by decide)
    (by decide)).1 (by decide)
  have h3 : dest ++ ".template".toList = "out/a.txt".toList ++ ".template".toList :=
    h2.trans (by decide)
  rw [h1, List.append_cancel_right h3]

/-- Claim C7. With the simple-file source `a.template` and the output path
`out.template`, which does not exist, the file created is `out`, not
`out.template`: the extension suffix is cut off the output path given. -/
theorem C7_output_path_loses_extension :
    statOf [] ["a.template".toList] "out.template".toList = none ∧
      walkFn (outFlags "out.template" false)
          (classify (outFlags "out.template" false) (statOf [] ["a.template".toList])
            "a.template".toList)
          "a.template".toList "a.template".toList false
        = Action.execute "a.template".toList (some "out".toList) := by
  decide

/-- Counterexample to claim C8: the simple-file source `a.txt`, whose extension
is not the configured `.template`, with `--all` unset and output `out.txt`, is
executed as a template and not linked. -/
theorem C8_counterexample :
    filepath.Ext "a.txt".toList ≠ (outFlags "out.txt" false).Extension ∧
      (outFlags "out.txt" false).All = false ∧
      walkFn (outFlags "out.txt" false)
          (classify (outFlags "out.txt" false) (statOf [] ["a.txt".toList]) "a.txt".toList)
          "a.txt".toList "a.txt".toList false
        = Action.execute "a.txt".toList (some "out.txt".toList) ∧
      ¬ ∃ destination, walkFn (outFlags "out.txt" false)
          (classify (outFlags "out.txt" false) (statOf [] ["a.txt".toList]) "a.txt".toList)
          "a.txt".toList "a.txt".toList false
        = Action.Link "a.txt".toList destination := by
  refine ⟨by decide, by decide, by decide, ?_⟩
  rintro ⟨destination, h⟩
  have h2 : walkFn (outFlags "out.txt" false)
      (classify (outFlags "out.txt" false) (statOf [] ["a.txt".toList]) "a.txt".toList)
      "a.txt".toList "a.txt".toList false
      = Action.execute "a.txt".toList (some "out.txt".toList) := by decide
  rw [h2] at h
  cases h

/-- Claim C8, amended. With a simple-file source and an output path, the
extension test does not decide between copying and rendering: the visited
file is executed as a template whatever its extension and whether or not
`--all` is set, and is never linked. -/
theorem C8_file_to_file_always_executes (inputFlags : FlagsType) (Stat : StatFn)
    (templateInput root p : Str) (hO : inputFlags.Output ≠ [])
    (hsrc : Stat templateInput = some false) :
    (∃ dest, walkFn inputFlags (classify inputFlags Stat templateInput) root p false
      = Action.execute p (some dest)) ∧
    (∀ destination, walkFn inputFlags (classify inputFlags Stat templateInput) root p false
      ≠ Action.Link p destination) := by
  have hw : ∃ dest, walkFn inputFlags (classify inputFlags Stat templateInput) root p false
      = Action.execute p (some dest) := by
    simp [walkFn, classify, hO, hsrc]
  refine ⟨hw, ?_⟩
  intro destination h
  obtain ⟨dest, hdest⟩ := hw
  rw [hdest] at h
  cases h

/-- Witness of claim C8, amended: `a.txt` with output `out.txt` and `--all` unset
is executed as a template and not linked. -/
theorem C8_file_to_file_always_executes_witness :
    (∃ dest, walkFn (outFlags "out.txt" false)
        (classify (outFlags "out.txt" false) (statOf [] ["a.txt".toList]) "a.txt".toList)
        "a.txt".toList "a.txt".toList false
      = Action.execute "a.txt".toList (some dest)) ∧
    (∀ destination, walkFn (outFlags "out.txt" false)
        (classify (outFlags "out.txt" false) (statOf [] ["a.txt".toList]) "a.txt".toList)
        "a.txt".toList "a.txt".toList false
      ≠ Action.Link "a.txt".toList destination) :=
  C8_file_to_file_always_executes (outFlags "out.txt" false) (statOf [] ["a.txt".toList])
    "a.txt".toList "a.txt".toList "a.txt".toList (by decide) (by decide)

/-- Claim C9. With the source directory given as `.`, output `out` and the file
`a.txt`, whose extension is not the configured one: with `--all` unset the
file is linked to `out/atxt`, and with `--all` set it is executed into
`out/atxt`; in both cases the destination file name is not the name `a.txt`
of the file, where the claim has it unchanged (`out/a.txt`). -/
theorem C9_dot_root_changes_file_name :
    ("a.txt".toList, false) ∈ Walk ".".toList exTree ∧
      filepath.Ext "a.txt".toList ≠ (outFlags "out" false).Extension ∧
      filepath.Join "out".toList "a.txt".toList = "out/a.txt".toList ∧
      walkFn (outFlags "out" false)
          (classify (outFlags "out" false) (statOf [".".toList] []) ".".toList)
          ".".toList "a.txt".toList false
        = Action.Link "a.txt".toList "out/atxt".toList ∧
      walkFn (outFlags "out" true)
          (classify (outFlags "out" true) (statOf [".".toList] []) ".".toList)
          ".".toList "a.txt".toList false
        = Action.execute "a.txt".toList (some "out/atxt".toList) := by
  decide

/-- Counterexample to claim C10: without an output path, the simple-file source
`a.txt`, whose extension is not the configured one, with `--all` unset, is
executed as a template to standard output and not printed verbatim. -/
theorem C10_counterexample :
    (outFlags "" false).Output = [] ∧
      statOf [] ["a.txt".toList] "a.txt".toList = some false ∧
      filepath.Ext "a.txt".toList ≠ (outFlags "" false).Extension ∧
      (outFlags "" false).All = false ∧
      walkFn (outFlags "" false)
          (classify (outFlags "" false) (statOf [] ["a.txt".toList]) "a.txt".toList)
          "a.txt".toList "a.txt".toList false
        = Action.execute "a.txt".toList none ∧
      walkFn (outFlags "" false)
          (classify (outFlags "" false) (statOf [] ["a.txt".toList]) "a.txt".toList)
          "a.txt".toList "a.txt".toList false
        ≠ Action.printFile "a.txt".toList := by
  decide

/-- Claim C10, amended. Without an output path, every directory visited is
skipped; a file is printed verbatim to standard output exactly when the
source is not a simple file (`os.Stat` fails on it or finds a directory),
`--all` is unset and the extension of the file is not the configured one;
every other file, in particular the file of a simple-file source, is
executed as a template to standard output. -/
theorem C10_stdout_mode (inputFlags : FlagsType) (Stat : StatFn) (templateInput root p : Str)
    (hO : inputFlags.Output = []) :
    walkFn inputFlags (classify inputFlags Stat templateInput) root p true = Action.skip ∧
    (Stat templateInput ≠ some false → inputFlags.All = false →
      filepath.Ext p ≠ inputFlags.Extension →
      walkFn inputFlags (classify inputFlags Stat templateInput) root p false
        = Action.printFile p) ∧
    (Stat templateInput = some false ∨ inputFlags.All = true ∨
        filepath.Ext p = inputFlags.Extension →
      walkFn inputFlags (classify inputFlags Stat templateInput) root p false
        = Action.execute p none) := by
  refine ⟨by simp [walkFn, hO], ?_, ?_⟩
  · intro hs hall hext
    have hcls : ((Stat templateInput).isNone || (Stat templateInput).getD false) = true := by
      cases h : Stat templateInput with
      | none => rfl
      | some b =>
        cases b with
        | true => rfl
        | false => exact absurd h hs
    simp [walkFn, classify, hO, hall, hext, hcls]
  · intro h
    rcases h with h | h | h
    · simp [walkFn, classify, hO, h]
    · simp [walkFn, classify, hO, h]
    · simp [walkFn, classify, hO, h]

/-- Witness of claim C10, amended: without an output path, under the directory
source `src` the file `src/a.txt` is printed verbatim. -/
theorem C10_stdout_mode_witness :
    walkFn (outFlags "" false)
        (classify (outFlags "" false) (statOf ["src".toList] []) "src".toList)
        "src".toList "src/a.txt".toList false
      = Action.printFile "src/a.txt".toList :=
  (C10_stdout_mode (outFlags "" false) (statOf ["src".toList] []) "src".toList "src".toList
    "src/a.txt".toList (by decide)).2.1 (by decide) (by decide) (by decide)

/-- Claim C11. Without an output path and under the directory source `src`, the
file `src/a.txt`, whose extension is not the configured one, is printed by
`fmt.Fprint(out, regularFileContent)`; for the content `hi` the text written
is `[104 105]`, and for no content is the text written the content itself. -/
theorem C11_stdout_copy_is_not_byte_exact :
    walkFn (outFlags "" false)
        (classify (outFlags "" false) (statOf ["src".toList] []) "src".toList)
        "src".toList "src/a.txt".toList false
      = Action.printFile "src/a.txt".toList ∧
    writtenVerbatim (fun _ => "hi".toList) (Action.printFile "src/a.txt".toList)
      = some "[104 105]".toList ∧
    (∀ (ReadFile : Str → Str) (currentPath : Str),
      writtenVerbatim ReadFile (Action.printFile currentPath) ≠ some (ReadFile currentPath)) := by
  refine ⟨by decide, by decide, ?_⟩
  intro ReadFile currentPath h
  simp only [writtenVerbatim, Option.some.injEq] at h
  have h1 := Fprint_length (ReadFile currentPath)
  rw [h] at h1
  omega

/-- Claim C12. On a text, `interface2uint64` returns no error exactly when the
text is a non-empty sequence of ASCII decimal digits whose base-10 value is
at most `2^64 - 1`, and the number it then returns is that value; on every
other text it returns an error. -/
theorem C12_text_normalisation (s : Str) :
    ((interface2uint64 (Input.string s)).2 = none ↔
      (s ≠ [] ∧ (∀ c ∈ s, '0'.toNat ≤ c.toNat ∧ c.toNat ≤ '9'.toNat) ∧
        decimalValue s ≤ 2 ^ 64 - 1)) ∧
    ((interface2uint64 (Input.string s)).2 = none →
      (interface2uint64 (Input.string s)).1 = decimalValue s) := by
  have h := ParseUint_spec s
  refine ⟨?_, h.2.1⟩
  show (strconv.ParseUint s).2 = none ↔ _
  rw [h.1]
  have hall : s.all strconv.isDecimalDigit = true
      ↔ ∀ c ∈ s, '0'.toNat ≤ c.toNat ∧ c.toNat ≤ '9'.toNat := by
    simp [List.all_eq_true, strconv.isDecimalDigit]
  rw [hall]
  have hle : decimalValue s < 2 ^ 64 ↔ decimalValue s ≤ 2 ^ 64 - 1 := by
    norm_num
    omega
  rw [hle]

/-- Claim C13. On a `uint64`, `interface2uint64` returns the value unchanged; on
an `int` or `int64` `x` it returns `x` modulo `2^64`, which for a negative `x`
is `2^64 + x`, and never an error; and on a value whose dynamic type is none
of `uint64`, `float64`, `int`, `int64`, `string` it returns an error. -/
theorem C13_non_text_normalisation :
    (∀ x : Nat, interface2uint64 (Input.uint64 x) = (x, none)) ∧
    (∀ x : Int, interface2uint64 (Input.int x) = ((x % 2 ^ 64).toNat, none) ∧
      interface2uint64 (Input.int64 x) = ((x % 2 ^ 64).toNat, none)) ∧
    (∀ x : Int, -(2 ^ 63) ≤ x → x < 0 →
      (((interface2uint64 (Input.int x)).1 : Nat) : Int) = 2 ^ 64 + x ∧
      (((interface2uint64 (Input.int64 x)).1 : Nat) : Int) = 2 ^ 64 + x) ∧
    (∀ x : Int, 0 ≤ x → x < 2 ^ 63 →
      (((interface2uint64 (Input.int x)).1 : Nat) : Int) = x ∧
      (((interface2uint64 (Input.int64 x)).1 : Nat) : Int) = x) ∧
    (∀ input : Input, input.accepted = false →
      interface2uint64 input = (0, some (NumError.cannotConvert input))) ∧
    interface2uint64 (Input.bool true) = (0, some (NumError.cannotConvert (Input.bool true))) ∧
    interface2uint64 Input.nil = (0, some (NumError.cannotConvert Input.nil)) ∧
    interface2uint64 (Input.int (-1)) = (2 ^ 64 - 1, none) := by
  refine ⟨fun x => rfl, fun x => ⟨rfl, rfl⟩, ?_, ?_, ?_, by decide, by decide, by decide⟩
  · intro x h1 h2
    simp only [interface2uint64]
    have h3 : 0 ≤ x % 2 ^ 64 := Int.emod_nonneg _ (by norm_num)
    rw [Int.toNat_of_nonneg h3]
    omega
  · intro x h1 h2
    simp only [interface2uint64]
    have h3 : 0 ≤ x % 2 ^ 64 := Int.emod_nonneg _ (by norm_num)
    rw [Int.toNat_of_nonneg h3]
    omega
  · intro input h
    cases input <;> simp [Input.accepted] at h <;> rfl

/-- Claim C14. On the text `18446744073709551616`, which is `2^64`, the
normaliser fails with a range error and the number `2^64 - 1`; `counter`
returns that error, and its loop, which does not look at the error, builds
a sequence of `2^64 - 1` numbers, not the empty sequence. -/
theorem C14_counter_range_error :
    interface2uint64 (Input.string "18446744073709551616".toList)
        = (2 ^ 64 - 1, some (NumError.ErrRange "18446744073709551616".toList)) ∧
      (counter (Input.string "18446744073709551616".toList)).2
        = some (NumError.ErrRange "18446744073709551616".toList) ∧
      (counter (Input.string "18446744073709551616".toList)).1.length = 2 ^ 64 - 1 := by
  have h1 : interface2uint64 (Input.string "18446744073709551616".toList)
      = (2 ^ 64 - 1, some (NumError.ErrRange "18446744073709551616".toList)) := by decide
  refine ⟨h1, ?_, ?_⟩
  · rw [counter_snd, h1]
  · rw [counter_length (Input.string "18446744073709551616".toList) rfl, h1]

/-- Claim C15. With an input that normalises to `n`, `left(s, n)` returns the
first `n` bytes of `s` and no error when `n <= len(s)`, and panics (slice
bounds out of range) when `n > len(s)`; with an input whose normalisation
fails, it returns the empty string and that error. So `left("hello", 2)` is
`he`. -/
theorem C15_left (s : Str) (input : Input) :
    (∀ n, interface2uint64 input = (n, none) →
      (n ≤ s.length → left s input = Outcome.returns (s.take n) none) ∧
      (s.length < n → left s input = Outcome.panic)) ∧
    (∀ v err, interface2uint64 input = (v, some err) →
      left s input = Outcome.returns [] (some err)) ∧
    left "hello".toList (Input.int 2) = Outcome.returns "he".toList none := by
  refine ⟨?_, ?_, by decide⟩
  · intro n hn
    constructor
    · intro hle
      simp [left, hn, sliceString, hle]
    · intro hlt
      have : ¬ n ≤ s.length := by omega
      simp [left, hn, sliceString, this]
  · intro v err hv
    simp [left, hv]

/-- Claim C16. For a string `s` (its length fits an `int`) and an input in the
range of its type that normalises to `n`, `right(s, n)` returns the last `n`
bytes of `s` and no error when `n <= len(s)`, and panics when `n > len(s)`,
also for every `n >= 2^63`, where `int(n)` is negative; a string it returns
has length `n`. -/
theorem C16_right (s : Str) (input : Input) (n : Nat) (hs : s.length < 2 ^ 63)
    (hin : input.inRange = true) (hn : interface2uint64 input = (n, none)) :
    (n ≤ s.length → right s input = Outcome.returns (s.drop (s.length - n)) none) ∧
    (s.length < n → right s input = Outcome.panic) ∧
    (∀ v err, right s input = Outcome.returns v err → err = none ∧ v.length = n) := by
  have hlt : n < 2 ^ 64 := by
    have := interface2uint64_lt input hin
    rw [hn] at this
    exact this
  have h1 : n ≤ s.length →
      right s input = Outcome.returns (s.drop (s.length - n)) none := by
    intro hle
    have hw : wrapInt ((s.length : Int) - toInt n) = ((s.length - n : Nat) : Int) := by
      unfold wrapInt toInt
      rw [if_pos (by omega)]
      omega
    simp only [right, hn, hw, sliceFrom]
    rw [if_pos (by omega)]
    simp
  have h2 : s.length < n → right s input = Outcome.panic := by
    intro hgt
    have hw : ¬ (0 ≤ wrapInt ((s.length : Int) - toInt n) ∧
        wrapInt ((s.length : Int) - toInt n) ≤ (s.length : Int)) := by
      unfold wrapInt toInt
      by_cases h63 : n < 2 ^ 63
      · rw [if_pos h63]
        omega
      · rw [if_neg h63]
        omega
    simp only [right, hn, sliceFrom]
    rw [if_neg hw]
  refine ⟨h1, h2, ?_⟩
  intro v err hv
  by_cases hle : n ≤ s.length
  · rw [h1 hle] at hv
    cases hv
    refine ⟨rfl, ?_⟩
    rw [List.length_drop]
    omega
  · rw [h2 (by omega)] at hv
    cases hv

/-- Witness of claim C16: `right("hello", 2)` is `lo`. -/
theorem C16_right_witness :
    right "hello".toList (Input.int 2) = Outcome.returns "lo".toList none :=
  (C16_right "hello".toList (Input.int 2) 2 (by decide) (by decide) (by decide)).1 (by decide)

/-- Claim C17. For a string `s` (its length fits an `int`) and inputs in the
range of their types that normalise to `b` and `l`, `mid(s, b, l)` returns
the `l` bytes of `s` from position `b` and no error when `b + l <= len(s)`
in exact arithmetic, and panics in every other case, also when `b + l` wraps
around `2^64`; so it returns without error exactly when `b + l <= len(s)`. -/
theorem C17_mid (s : Str) (inputb inputl : Input) (b l : Nat) (hs : s.length < 2 ^ 63)
    (hinb : inputb.inRange = true) (hinl : inputl.inRange = true)
    (hb : interface2uint64 inputb = (b, none)) (hl : interface2uint64 inputl = (l, none)) :
    (b + l ≤ s.length →
      mid s inputb inputl = Outcome.returns ((s.drop b).take l) none ∧
      ((s.drop b).take l).length = l) ∧
    (s.length < b + l → mid s inputb inputl = Outcome.panic) ∧
    ((∃ v, mid s inputb inputl = Outcome.returns v none) ↔ b + l ≤ s.length) := by
  have hblt : b < 2 ^ 64 := by
    have := interface2uint64_lt inputb hinb
    rw [hb] at this
    exact this
  have hllt : l < 2 ^ 64 := by
    have := interface2uint64_lt inputl hinl
    rw [hl] at this
    exact this
  have h1 : b + l ≤ s.length →
      mid s inputb inputl = Outcome.returns ((s.drop b).take l) none := by
    intro hle
    have hmod : (b + l) % 2 ^ 64 = b + l := Nat.mod_eq_of_lt (by omega)
    simp only [mid, hb, hl, hmod, sliceString]
    rw [if_pos ⟨by omega, hle⟩]
    simp
  have h2 : s.length < b + l → mid s inputb inputl = Outcome.panic := by
    intro hgt
    have hno : ¬ (b ≤ (b + l) % 2 ^ 64 ∧ (b + l) % 2 ^ 64 ≤ s.length) := by
      by_cases hov : b + l < 2 ^ 64
      · rw [Nat.mod_eq_of_lt hov]
        omega
      · have : (b + l) % 2 ^ 64 = b + l - 2 ^ 64 := by
          rw [Nat.mod_eq_sub_mod (Nat.le_of_not_lt hov)]
          exact Nat.mod_eq_of_lt (by omega)
        rw [this]
        omega
    simp only [mid, hb, hl, sliceString]
    rw [if_neg hno]
  refine ⟨fun hle => ⟨h1 hle, ?_⟩, h2, ?_⟩
  · rw [List.length_take, List.length_drop]
    omega
  · constructor
    · rintro ⟨v, hv⟩
      by_contra hne
      rw [h2 (by omega)] at hv
      cases hv
    · intro hle
      exact ⟨_, h1 hle⟩

/-- Witness of claim C17: `mid("hello", 1, 3)` is `ell`. -/
theorem C17_mid_witness :
    mid "hello".toList (Input.int 1) (Input.int 3) = Outcome.returns "ell".toList none :=
  ((C17_mid "hello".toList (Input.int 1) (Input.int 3) 1 3 (by decide) (by decide) (by decide)
    (by decide) (by decide)).1 (by decide)).1

/-- Claim C18. For inputs in the range of their types that normalise to `x` and
`y`, `add` returns `(x + y) mod 2^64` and `sub` returns `(x - y) mod 2^64`,
without error; `sub` with `y > x` gives `2^64 - (y - x)`, and `sub` of the sum
and `y` gives `x` back. When an operand fails to normalise, both return 0 and
the error of the first failing operand. -/
theorem C18_add_sub (a b : Input) (ha : a.inRange = true) (hb : b.inRange = true) :
    (∀ x y, interface2uint64 a = (x, none) → interface2uint64 b = (y, none) →
      add a b = ((x + y) % 2 ^ 64, none) ∧
      (∃ r, sub a b = (r, none) ∧ (r : Int) = ((x : Int) - (y : Int)) % 2 ^ 64) ∧
      (x < y → sub a b = (2 ^ 64 - (y - x), none)) ∧
      sub (Input.uint64 (add a b).1) b = (x, none)) ∧
    (∀ v err, interface2uint64 a = (v, some err) →
      add a b = (0, some err) ∧ sub a b = (0, some err)) ∧
    (∀ x v err, interface2uint64 a = (x, none) → interface2uint64 b = (v, some err) →
      add a b = (0, some err) ∧ sub a b = (0, some err)) := by
  refine ⟨?_, ?_, ?_⟩
  · intro x y hx hy
    have hxlt : x < 2 ^ 64 := by
      have := interface2uint64_lt a ha
      rw [hx] at this
      exact this
    have hylt : y < 2 ^ 64 := by
      have := interface2uint64_lt b hb
      rw [hy] at this
      exact this
    have hadd : add a b = ((x + y) % 2 ^ 64, none) := by simp [add, hx, hy]
    have hsub : sub a b = ((x + 2 ^ 64 - y) % 2 ^ 64, none) := by simp [sub, hx, hy]
    refine ⟨hadd, ⟨_, hsub, ?_⟩, ?_, ?_⟩
    · omega
    · intro hlt
      rw [hsub]
      have : (x + 2 ^ 64 - y) % 2 ^ 64 = 2 ^ 64 - (y - x) := by omega
      rw [this]
    · rw [hadd]
      have hback : ((x + y) % 2 ^ 64 + 2 ^ 64 - y) % 2 ^ 64 = x := by omega
      have h0 : interface2uint64 (Input.uint64 ((x + y) % 2 ^ 64))
          = ((x + y) % 2 ^ 64, none) := rfl
      simp only [sub, h0, hy, hback]
  · intro v err hv
    simp [add, sub, hv]
  · intro x v err hx hv
    simp [add, sub, hx, hv]

/-- Witness of claim C18: `add("2", 3)` is 5 and `sub(2, 5)` is `2^64 - 3`. -/
theorem C18_add_sub_witness :
    add (Input.string "2".toList) (Input.int 3) = (5, none) ∧
      sub (Input.int 2) (Input.int 5) = (2 ^ 64 - 3, none) :=
  ⟨((C18_add_sub (Input.string "2".toList) (Input.int 3) (by decide) (by decide)).1 2 3
      (by decide) (by decide)).1,
    ((C18_add_sub (Input.int 2) (Input.int 5) (by decide) (by decide)).1 2 5
      (by decide) (by decide)).2.2.1 (by decide)⟩

/-- Claim C19. The map of a name of `--map` is built exactly when every
comma-separated item of its variable contains an `=`; an item is split at its
first `=` (the key, an `=` and the value give the item back, and the key has
no `=`), and the map holds for a key the value of the last item with that
key. When some item has no `=`, as the single empty item of an empty or unset
variable, the error names the variable and the first such item, and a build
with that name in `--map` does not succeed. -/
theorem C19_map_parsing (os : Process) (envVar : Str) :
    ((∃ m, readMapVar os envVar = .ok m) ↔
      ∀ item ∈ strings.Split (os.Getenv envVar) ',', '=' ∈ item) ∧
    (∀ item, '=' ∈ item →
      (strings.Split item '=').headD [] ++ '=' :: strings.Join (strings.Split item '=').tail ['=']
        = item ∧
      '=' ∉ (strings.Split item '=').headD []) ∧
    (∀ m pre item post, readMapVar os envVar = .ok m →
      strings.Split (os.Getenv envVar) ',' = pre ++ item :: post →
      (∀ x ∈ post, (strings.Split x '=').headD [] ≠ (strings.Split item '=').headD []) →
      mapGet m ((strings.Split item '=').headD [])
        = some (strings.Join (strings.Split item '=').tail ['='])) ∧
    (∀ pre item post, strings.Split (os.Getenv envVar) ',' = pre ++ item :: post →
      (∀ x ∈ pre, '=' ∈ x) → '=' ∉ item →
      readMapVar os envVar = .error (BuildError.errorsNew
        ("Missing =. ".toList ++ envVar ++ " does not contain a map: ".toList ++ item))) ∧
    (os.Getenv envVar = [] →
      readMapVar os envVar = .error (BuildError.errorsNew
        ("Missing =. ".toList ++ envVar ++ " does not contain a map: ".toList))) ∧
    (∀ (γ : Type) (inputFlags : FlagsType) (viper : Viper γ) (d : Dict γ),
      listed inputFlags.Map envVar → (¬ ∃ m, readMapVar os envVar = .ok m) →
      buildDictionary inputFlags os viper ≠ .ok d) := by
  refine ⟨readMapItems_ok_iff _ _ _, item_key_value, ?_, ?_, ?_, ?_⟩
  · intro m pre item post hm hsplit hpost
    unfold readMapVar at hm
    rw [hsplit] at hm
    exact readMapItems_last envVar pre item post [] m hm hpost
  · intro pre item post hsplit hpre hitem
    unfold readMapVar
    rw [hsplit]
    exact readMapItems_error envVar pre item post [] hpre hitem
  · intro hempty
    unfold readMapVar
    rw [hempty]
    have := readMapItems_error envVar [] [] [] [] (by simp) (by simp)
    simpa [strings.Split, missingEquals] using this
  · intro γ inputFlags viper d hl hno hok
    obtain ⟨d2, -, hm⟩ := buildDictionary_ok inputFlags os viper d hok
    obtain ⟨m, hm2, -⟩ := (readMap_apply inputFlags os _ d envVar hm).1 hl
    exact hno ⟨m, hm2⟩

/-- Claim C20. With the compound source `a.template,dir/b.template` and the
output path `out`, the run makes the directory `out` and then executes
`a.template` into `out/a` and `dir/b.template` into `out/dir/b`; the directory
`out/dir` of the last destination is not the output directory and is made by
no earlier step. -/
theorem C20_file_root_directory_not_made :
    RunRootActions (outFlags "out" false) multiStat multiLstat "a.template,dir/b.template".toList
      = [Action.MkdirAll "out".toList,
          Action.execute "a.template".toList (some "out/a".toList),
          Action.execute "dir/b.template".toList (some "out/dir/b".toList)] ∧
    filepath.Dir "out/dir/b".toList = "out/dir".toList ∧
    parentMade "out".toList
      [Action.MkdirAll "out".toList, Action.execute "a.template".toList (some "out/a".toList)]
      "out/dir/b".toList = false ∧
    parentsMade "out".toList []
      (RunRootActions (outFlags "out" false) multiStat multiLstat
        "a.template,dir/b.template".toList) = false := by
  decide

end Stemplate
